import Mathlib

/-!
# Verification of the knowledge-graph-browser summarization engine and layout orchestrator

This development embeds the core of the graph summarization engine
(`NodeGroup`: group membership, directional group-edge aggregation with
class-intersection semantics, identity-preserving cache) and the Cola layout
orchestrator (`ColaLayout`: circle seeding, drag/lock/expansion/compact-mode
event handling, fixed-node sets, cancellation of in-flight layout runs) as
Lean definitions, and proves the specified properties about them.

The JavaScript `Map`/object containers are embedded as insertion-ordered
association lists (`Map.set` updates an existing key in place and appends a
new key, matching the JS iteration-order semantics), `Set<string>` either as
first-occurrence-deduplicated lists (`jsSetOf`) or as `Finset String` where
only membership is observed, and object identity of `GroupEdge` instances is
made observable through an allocation counter threaded through the
computation.
-/

/-! ## Association-list containers (JS `Map` / plain-object semantics) -/

/-- Lookup in an insertion-ordered association list (JS `Map.get` / `obj[k]`). -/
def lookupS {κ α : Type} [DecidableEq κ] : List (κ × α) → κ → Option α
  | [], _ => none
  | (k, v) :: rest, key => if k = key then some v else lookupS rest key

/-- JS `Map.set` / `obj[k] = v`: update an existing key in place (keeping its
position), otherwise append the new binding at the end. -/
def setS {κ α : Type} [DecidableEq κ] : List (κ × α) → κ → α → List (κ × α)
  | [], key, v => [(key, v)]
  | (k, w) :: rest, key, v =>
    if k = key then (k, v) :: rest else (k, w) :: setS rest key v

theorem lookupS_setS {κ α : Type} [DecidableEq κ] (m : List (κ × α)) (k k' : κ) (v : α) :
    lookupS (setS m k v) k' = if k' = k then some v else lookupS m k' := by
  induction m with
  | nil =>
    by_cases h : k' = k
    · subst h; simp [setS, lookupS]
    · have h' : ¬ k = k' := fun g => h g.symm
      simp [setS, lookupS, h, h']
  | cons p rest ih =>
    obtain ⟨a, b⟩ := p
    simp only [setS]
    by_cases hak : a = k
    · subst hak
      by_cases h : k' = a
      · subst h; simp [lookupS]
      · have h' : ¬ a = k' := fun g => h g.symm
        simp [lookupS, h, h']
    · rw [if_neg hak]
      by_cases h : a = k'
      · subst h
        simp [lookupS, hak]
      · simp [lookupS, h, ih]

theorem lookupS_isSome_iff_mem_keys {κ α : Type} [DecidableEq κ]
    (m : List (κ × α)) (k : κ) : (lookupS m k).isSome ↔ k ∈ m.map Prod.fst := by
  induction m with
  | nil => simp [lookupS]
  | cons p rest ih =>
    obtain ⟨a, b⟩ := p
    simp only [lookupS, List.map_cons, List.mem_cons]
    by_cases h : a = k
    · simp [h]
    · have h' : ¬ k = a := fun g => h g.symm
      simp [h, h', ih]

theorem keys_setS {κ α : Type} [DecidableEq κ] (m : List (κ × α)) (k : κ) (v : α) :
    (setS m k v).map Prod.fst =
      if (lookupS m k).isSome then m.map Prod.fst else m.map Prod.fst ++ [k] := by
  induction m with
  | nil => simp [setS, lookupS]
  | cons p rest ih =>
    obtain ⟨a, b⟩ := p
    simp only [setS, lookupS]
    by_cases h : a = k
    · simp [h]
    · simp only [if_neg h, List.map_cons, ih]
      by_cases h2 : (lookupS rest k).isSome
      · simp [h2]
      · simp [h2]

theorem keys_nodup_setS {κ α : Type} [DecidableEq κ] (m : List (κ × α)) (k : κ) (v : α)
    (h : (m.map Prod.fst).Nodup) : ((setS m k v).map Prod.fst).Nodup := by
  rw [keys_setS]
  by_cases hs : (lookupS m k).isSome
  · simpa [hs]
  · have hk : k ∉ m.map Prod.fst := by
      intro hmem
      exact hs ((lookupS_isSome_iff_mem_keys m k).2 hmem)
    rw [if_neg hs, List.nodup_append]
    refine ⟨h, List.nodup_singleton k, ?_⟩
    intro x hx hxk
    simp only [List.mem_singleton] at hxk
    subst hxk
    exact hk hx

theorem mem_setS {κ α : Type} [DecidableEq κ] {m : List (κ × α)} {k : κ} {v : α}
    {p : κ × α} (h : p ∈ setS m k v) : p = (k, v) ∨ p ∈ m := by
  induction m with
  | nil => simpa [setS] using h
  | cons q rest ih =>
    obtain ⟨a, b⟩ := q
    simp only [setS] at h
    by_cases hak : a = k
    · rw [if_pos hak] at h
      rcases List.mem_cons.1 h with h1 | h1
      · exact Or.inl (by rw [h1, hak])
      · exact Or.inr (List.mem_cons_of_mem _ h1)
    · rw [if_neg hak] at h
      rcases List.mem_cons.1 h with h1 | h1
      · exact Or.inr (by rw [h1]; exact List.mem_cons_self _ _)
      · rcases ih h1 with h2 | h2
        · exact Or.inl h2
        · exact Or.inr (List.mem_cons_of_mem _ h2)

theorem lookupS_of_mem_nodup {κ α : Type} [DecidableEq κ] {m : List (κ × α)} {k : κ} {v : α}
    (hn : (m.map Prod.fst).Nodup) (h : (k, v) ∈ m) : lookupS m k = some v := by
  induction m with
  | nil => simp at h
  | cons q rest ih =>
    obtain ⟨a, b⟩ := q
    simp only [List.map_cons, List.nodup_cons] at hn
    rcases (by simpa using h : (k = a ∧ v = b) ∨ (k, v) ∈ rest) with ⟨h1, h2⟩ | h1
    · subst h1; subst h2; simp [lookupS]
    · have hka : a ≠ k := by
        intro hak
        exact hn.1 (by
          subst hak
          exact List.mem_map_of_mem Prod.fst h1)
      simp [lookupS, hka, ih hn.2 h1]

/-! ## `new Set(list)` : first-occurrence deduplication -/

/-- Walk the list keeping every element not seen before. -/
def jsSetOfAux (seen : List String) : List String → List String
  | [] => []
  | c :: rest =>
    if seen.contains c then jsSetOfAux seen rest
    else c :: jsSetOfAux (c :: seen) rest

/-- JS `new Set(list)` keeps the first occurrence of every element, in order. -/
def jsSetOf (l : List String) : List String := jsSetOfAux [] l

theorem mem_jsSetOfAux {a : String} : ∀ (l seen : List String),
    a ∈ jsSetOfAux seen l ↔ a ∈ l ∧ a ∉ seen
  | [], seen => by simp [jsSetOfAux]
  | c :: rest, seen => by
    simp only [jsSetOfAux]
    by_cases hc : seen.contains c
    · rw [if_pos hc, mem_jsSetOfAux rest seen]
      have hcs : c ∈ seen := by simpa using hc
      constructor
      · rintro ⟨h1, h2⟩
        exact ⟨List.mem_cons_of_mem _ h1, h2⟩
      · rintro ⟨h1, h2⟩
        rcases List.mem_cons.1 h1 with rfl | h1'
        · exact absurd hcs h2
        · exact ⟨h1', h2⟩
    · rw [if_neg hc]
      have hcs : c ∉ seen := by simpa using hc
      by_cases hac : a = c
      · subst hac
        simp [hcs]
      · simp only [List.mem_cons, hac, false_or]
        rw [mem_jsSetOfAux rest (c :: seen)]
        simp [hac]

theorem mem_jsSetOf {a : String} {l : List String} : a ∈ jsSetOf l ↔ a ∈ l := by
  rw [jsSetOf, mem_jsSetOfAux]
  simp

/-! ## Entity model

The `Node` class itself is not part of the analysed sources (only `NodeGroup`
and `ColaLayout` are). Modelled from the spec: a Node carries an identifier
(unique, stable), class labels, a visibility flag, a lock flag, a membership
reference to at most one group, and its incident edge list; an Edge carries
source id, target id, a type tag, class labels and a visibility flag. The
cyclic object graph is embedded as an arena keyed by identifiers, with
relations resolved by id lookup, as the spec's design notes prescribe. -/

structure EdgeT where
  sourceId : String
  targetId : String
  typeIri : String
  classes : List String
  isVisible : Bool
deriving DecidableEq, Repr

structure NodeT where
  id : String
  classes : List String
  isVisible : Bool
  belongsToGroup : Option String
  lockedForLayouts : Bool
  edges : List EdgeT
deriving DecidableEq, Repr

structure GroupT where
  id : String
  visible : Bool
  nodeIds : List String
deriving DecidableEq, Repr

structure GraphT where
  nodes : List NodeT
  groups : List GroupT
deriving DecidableEq, Repr

def lookupNode (G : GraphT) (i : String) : Option NodeT :=
  G.nodes.find? (fun n => n.id == i)

def lookupGroup (G : GraphT) (i : String) : Option GroupT :=
  G.groups.find? (fun g => g.id == i)

/-- The member `Node` objects of a group (`this.nodes`), resolved through the arena. -/
def memberNodes (G : GraphT) (g : GroupT) : List NodeT :=
  g.nodeIds.filterMap (lookupNode G)

namespace NodeGroup

/-- `NodeGroup.classes` getter: start from `new Set(this.nodes[0]?.classes ?? [])`
and delete every class not present on each member node in turn. -/
def classes (nodes : List NodeT) : List String :=
  let cs := jsSetOf (((nodes.head?).map NodeT.classes).getD [])
  nodes.foldl (fun acc n => acc.filter (fun c => n.classes.contains c)) cs

/-- `NodeGroup.isVisible` getter: `if (!this.visible) return false;
return this.nodes.some((node) => node.isVisible);`. -/
def isVisible (visible : Bool) (nodes : List NodeT) : Bool :=
  if !visible then false else nodes.any NodeT.isVisible

end NodeGroup

/-- C10: for a NodeGroup with an empty member list, the `classes` getter returns
the empty list (the access to the first member is guarded by `?.` and `?? []`),
and the `isVisible` getter returns `false` regardless of the stored `visible`
flag, since `some` on an empty list is `false`. -/
theorem nodeGroup_empty_members_safe :
    NodeGroup.classes [] = [] ∧ ∀ visible : Bool, NodeGroup.isVisible visible [] = false := by
  constructor
  · simp [NodeGroup.classes, jsSetOf, jsSetOfAux]
  · intro visible
    cases visible <;> simp [NodeGroup.isVisible]

/-! ## GroupEdge and the directional aggregation algorithm

`GroupEdge` itself is not part of the analysed sources. Modelled from the
spec: a GroupEdge is a derived edge with source, target, type and an
intersected class-label set, whose "stable identifier [is] computed from
(source-id, target-id, type) so that recomputation can reuse prior
instances". Object identity of the JS instances is embedded through the
`allocId` field: every `new GroupEdge(...)` consumes a fresh allocation
number, so two separately-created instances are never equal even when all
other fields agree. -/

structure GroupEdge where
  allocId : ℕ
  sourceId : String
  targetId : String
  typeIri : String
  classes : List String
deriving DecidableEq, Repr

/-- Modelled from the spec: the identity-key of a GroupEdge, "computed from
(source-id, target-id, type)". -/
def GroupEdge.identifier (e : GroupEdge) : String × String × String :=
  (e.sourceId, e.targetId, e.typeIri)

/-- The effective counterpart of an edge: either a raw `Node` or a `NodeGroup`. -/
inductive NodeOrGroup
  | node (n : NodeT)
  | group (g : GroupT)
deriving DecidableEq, Repr

def NodeOrGroup.identifier : NodeOrGroup → String
  | .node n => n.id
  | .group g => g.id

/-- `targetNode.isVisible`: a plain node's own flag, a group's derived
visibility (`NodeGroup.isVisible`). -/
def NodeOrGroup.isVisibleIn (G : GraphT) : NodeOrGroup → Bool
  | .node n => n.isVisible
  | .group g => NodeGroup.isVisible g.visible (memberNodes G g)

/-- The `continue` filters of the edge loop of `getGroupEdgesInDirection`
(lines 408-428): resolve the effective counterpart of `edge`, or `none` when
the edge is skipped. In the `out` direction the counterpart is
`edge.target.belongsToGroup ?? edge.target`, skipping group counterparts whose
underlying target is invisible or which are this group itself; in the `in`
direction the counterpart is the raw `edge.source`, kept only when its
groupedness matches `exclusivelyTargetIsGroup` (the XOR test). Finally
invisible edges and invisible counterparts are skipped. -/
def resolveCounterpart (G : GraphT) (thisId : String)
    (outNotIn exclusivelyTargetIsGroup : Bool) (edge : EdgeT) : Option NodeOrGroup :=
  let target? : Option NodeOrGroup :=
    if outNotIn then
      match lookupNode G edge.targetId with
      | none => none
      | some tn =>
        match tn.belongsToGroup with
        | some gid =>
          match lookupGroup G gid with
          | none => none
          | some g => if !tn.isVisible || g.id == thisId then none else some (.group g)
        | none => some (.node tn)
    else
      match lookupNode G edge.sourceId with
      | none => none
      | some sn =>
        if (sn.belongsToGroup.isSome && !exclusivelyTargetIsGroup)
            || (sn.belongsToGroup.isNone && exclusivelyTargetIsGroup) then none
        else some (.node sn)
  match target? with
  | none => none
  | some t => if !edge.isVisible || !t.isVisibleIn G then none else some t

/-- The flattened iteration of `getGroupEdgesInDirection`'s two nested loops:
every visible member node's edges, each paired with its resolved counterpart,
in iteration order (skipped edges dropped). -/
def iterationPairs (G : GraphT) (grp : GroupT)
    (outNotIn exclusivelyTargetIsGroup : Bool) : List (NodeOrGroup × EdgeT) :=
  ((memberNodes G grp).filter NodeT.isVisible).flatMap
    (fun sn => sn.edges.filterMap
      (fun e => (resolveCounterpart G grp.id outNotIn exclusivelyTargetIsGroup e).map
        (fun t => (t, e))))

/-- One bucket of the `targetTypeGroupEdge` map: edge-type iri ↦ the lazily
created GroupEdge together with its progressively intersected class set. -/
structure GroupEdgeAgg where
  groupEdge : GroupEdge
  classes : List String
deriving DecidableEq, Repr

abbrev TypeMap := List (String × GroupEdgeAgg)
abbrev TargetTypeMap := List (String × TypeMap)

/-- The body of the edge loop (lines 430-461): get-or-create the per-target
map, lazily create the GroupEdge for a new (counterpart, edge-type) pair, then
delete every accumulated class not present on the contributing edge. -/
def processEdge (thisId : String) (outNotIn : Bool)
    (st : TargetTypeMap × ℕ) (p : NodeOrGroup × EdgeT) : TargetTypeMap × ℕ :=
  let m := st.1
  let fresh := st.2
  let tid := p.1.identifier
  let edge := p.2
  let m := if (lookupS m tid).isSome then m else setS m tid []
  let inner := (lookupS m tid).getD []
  let create := (lookupS inner edge.typeIri).isNone
  let created : TypeMap × ℕ :=
    if create then
      let newEdge : GroupEdge :=
        if outNotIn then ⟨fresh, thisId, tid, edge.typeIri, []⟩
        else ⟨fresh, tid, thisId, edge.typeIri, []⟩
      (setS inner edge.typeIri ⟨newEdge, jsSetOf edge.classes⟩, fresh + 1)
    else (inner, fresh)
  let inner₂ :=
    match lookupS created.1 edge.typeIri with
    | some agg =>
      setS created.1 edge.typeIri
        ⟨agg.groupEdge, agg.classes.filter (fun c => edge.classes.contains c)⟩
    | none => created.1
  (setS m tid inner₂, created.2)

/-- Collect the final GroupEdges (lines 465-472): iterate the nested maps in
insertion order, writing the intersected class set onto each GroupEdge. -/
def collectGroupEdges (m : TargetTypeMap) : List GroupEdge :=
  m.flatMap (fun p => p.2.map (fun q => { q.2.groupEdge with classes := q.2.classes }))

/-- The pure aggregation pass of `getGroupEdgesInDirection` (lines 396-472),
before cache reconciliation: build the `targetTypeGroupEdge` map over all
iteration pairs, then collect. The allocation counter is threaded through. -/
def computeGroupEdges (G : GraphT) (grp : GroupT)
    (outNotIn exclusivelyTargetIsGroup : Bool) (fresh : ℕ) : List GroupEdge × ℕ :=
  let r := (iterationPairs G grp outNotIn exclusivelyTargetIsGroup).foldl
    (processEdge grp.id outNotIn) ([], fresh)
  (collectGroupEdges r.1, r.2)

/-! ## The three-bucket group-edge cache -/

abbrev CacheBucket := List ((String × String × String) × GroupEdge)

/-- `groupEdgesCache`: `out`, `in` and `in_group` buckets (the `in` bucket is
named `inDir` and `in_group` is named `inGroup` because `in` is reserved). -/
structure GroupEdgesCache where
  out : CacheBucket
  inDir : CacheBucket
  inGroup : CacheBucket
deriving DecidableEq, Repr

def selectBucket (outNotIn exclusivelyTargetIsGroup : Bool) (c : GroupEdgesCache) :
    CacheBucket :=
  if outNotIn then c.out
  else if exclusivelyTargetIsGroup then c.inGroup
  else c.inDir

/-- The replace-by-cache loop (lines 477-480): each computed edge whose
identity-key exists in the cache bucket is replaced by the cached instance,
and the (possibly replaced) edge is written into the fresh `newCache`. -/
def reconcile (cache : CacheBucket) : List GroupEdge → CacheBucket → List GroupEdge × CacheBucket
  | [], newCache => ([], newCache)
  | e :: rest, newCache =>
    let e' := (lookupS cache e.identifier).getD e
    let r := reconcile cache rest (setS newCache e'.identifier e')
    (e' :: r.1, r.2)

/-- `getGroupEdgesInDirection`: initialize the cache on first use, run the
aggregation pass, reconcile against the direction's cache bucket and replace
that bucket wholesale with the new result set. The cache (`Option` for the
initially-undefined field) and the allocation counter are passed explicitly,
as instance state. -/
def getGroupEdgesInDirection (G : GraphT) (grp : GroupT)
    (outNotIn exclusivelyTargetIsGroup : Bool)
    (cacheState : Option GroupEdgesCache) (fresh : ℕ) :
    List GroupEdge × GroupEdgesCache × ℕ :=
  let cache := cacheState.getD ⟨[], [], []⟩
  let c := computeGroupEdges G grp outNotIn exclusivelyTargetIsGroup fresh
  let bucket := selectBucket outNotIn exclusivelyTargetIsGroup cache
  let r := reconcile bucket c.1 []
  let cache' :=
    if outNotIn then { cache with out := r.2 }
    else if exclusivelyTargetIsGroup then { cache with inGroup := r.2 }
    else { cache with inDir := r.2 }
  (r.1, cache', c.2)

/-! ## Characterization of the aggregation pass -/

/-- The contributing real edges of one (counterpart, edge-type) pair within an
iteration list. -/
def contribsOf (pairs : List (NodeOrGroup × EdgeT)) (tid typ : String) : List EdgeT :=
  (pairs.filter (fun p => p.1.identifier == tid && p.2.typeIri == typ)).map Prod.snd

/-- The contributing real edges of a (counterpart, edge-type) pair of a group's
aggregation pass: the visible edges of visible member nodes whose resolved
counterpart has identifier `tid` and whose type is `typ`. -/
def contributions (G : GraphT) (grp : GroupT) (outNotIn exclusivelyTargetIsGroup : Bool)
    (tid typ : String) : List EdgeT :=
  contribsOf (iterationPairs G grp outNotIn exclusivelyTargetIsGroup) tid typ

/-- Progressive intersection, as the code computes it: seed with the
deduplicated classes of the first contributing edge, then filter by membership
on each later contributing edge. -/
def interList : List EdgeT → List String
  | [] => []
  | e :: rest =>
    rest.foldl (fun acc e' => acc.filter (fun c => e'.classes.contains c)) (jsSetOf e.classes)

theorem mem_foldl_filter (l : List EdgeT) (init : List String) (c : String) :
    c ∈ l.foldl (fun acc e' => acc.filter (fun c => e'.classes.contains c)) init ↔
      c ∈ init ∧ ∀ e ∈ l, c ∈ e.classes := by
  induction l generalizing init with
  | nil => simp
  | cons e l ih =>
    simp only [List.foldl_cons, ih, List.mem_filter, List.mem_cons]
    constructor
    · rintro ⟨⟨h1, h2⟩, h3⟩
      refine ⟨h1, ?_⟩
      intro e' he'
      rcases he' with rfl | he'
      · simpa using h2
      · exact h3 e' he'
    · rintro ⟨h1, h2⟩
      refine ⟨⟨h1, ?_⟩, ?_⟩
      · simpa using h2 e (Or.inl rfl)
      · intro e' he'
        exact h2 e' (Or.inr he')

theorem mem_interList {l : List EdgeT} (hl : l ≠ []) (c : String) :
    c ∈ interList l ↔ ∀ e ∈ l, c ∈ e.classes := by
  cases l with
  | nil => exact absurd rfl hl
  | cons e rest =>
    simp only [interList, mem_foldl_filter, mem_jsSetOf, List.mem_cons]
    constructor
    · rintro ⟨h1, h2⟩ e' he'
      rcases he' with rfl | he'
      · exact h1
      · exact h2 e' he'
    · intro h
      exact ⟨h e (Or.inl rfl), fun e' he' => h e' (Or.inr he')⟩

theorem interList_append_singleton {l : List EdgeT} (hl : l ≠ []) (e : EdgeT) :
    interList (l ++ [e]) = (interList l).filter (fun c => e.classes.contains c) := by
  cases l with
  | nil => exact absurd rfl hl
  | cons e₀ rest => simp [interList, List.foldl_append]

theorem contribsOf_append (pairs : List (NodeOrGroup × EdgeT)) (p : NodeOrGroup × EdgeT)
    (tid typ : String) :
    contribsOf (pairs ++ [p]) tid typ =
      contribsOf pairs tid typ ++
        (if p.1.identifier = tid ∧ p.2.typeIri = typ then [p.2] else []) := by
  by_cases h : p.1.identifier = tid ∧ p.2.typeIri = typ
  · have hb : (p.1.identifier == tid && p.2.typeIri == typ) = true := by
      simp [h.1, h.2]
    simp [contribsOf, List.filter_append, hb, h]
  · have hb : (p.1.identifier == tid && p.2.typeIri == typ) = false := by
      rcases not_and_or.1 h with h1 | h1 <;> simp [h1]
    simp [contribsOf, List.filter_append, hb, h]

theorem lookupS_mem {κ α : Type} [DecidableEq κ] {m : List (κ × α)} {k : κ} {v : α}
    (h : lookupS m k = some v) : (k, v) ∈ m := by
  induction m with
  | nil => simp [lookupS] at h
  | cons q rest ih =>
    obtain ⟨a, b⟩ := q
    simp only [lookupS] at h
    by_cases hak : a = k
    · rw [if_pos hak] at h
      subst hak
      have hbv : b = v := by simpa using h
      exact List.mem_cons.2 (Or.inl (by rw [hbv]))
    · exact List.mem_cons.2 (Or.inr (ih (by rwa [if_neg hak] at h)))

theorem setS_setS {κ α : Type} [DecidableEq κ] (m : List (κ × α)) (k : κ) (v w : α) :
    setS (setS m k v) k w = setS m k w := by
  induction m with
  | nil => simp [setS]
  | cons q rest ih =>
    obtain ⟨a, b⟩ := q
    by_cases hak : a = k
    · simp [setS, hak]
    · simp [setS, hak, ih]

theorem filter_contains_jsSetOf (l : List String) :
    (jsSetOf l).filter (fun c => l.contains c) = jsSetOf l := by
  apply List.filter_eq_self.2
  intro c hc
  have : c ∈ l := mem_jsSetOf.1 hc
  simpa using this

/-- Get-or-create of the per-target map (`if (!targetTypeGroupEdge.has(...)) set`). -/
def ensureOuter (m : TargetTypeMap) (tid : String) : TargetTypeMap :=
  if (lookupS m tid).isSome then m else setS m tid []

/-- The per-target map after get-or-create (`targetTypeGroupEdge.get(...)`). -/
def innerOf (m : TargetTypeMap) (tid : String) : TypeMap :=
  (lookupS (ensureOuter m tid) tid).getD []

/-- `new GroupEdge(this, targetNode, edge.type)` / `new GroupEdge(targetNode, this, edge.type)`. -/
def newGroupEdge (thisId : String) (outNotIn : Bool) (tid typ : String) (fresh : ℕ) :
    GroupEdge :=
  if outNotIn then ⟨fresh, thisId, tid, typ, []⟩ else ⟨fresh, tid, thisId, typ, []⟩

/-- Branch-level characterization of `processEdge`: either a fresh GroupEdge is
created for a new (counterpart, type) pair seeded with the deduplicated
contributing classes (the immediately following deletion loop removes
nothing), or the existing entry's class set is filtered by the contributing
edge's classes. -/
theorem processEdge_eq (thisId : String) (outNotIn : Bool) (m : TargetTypeMap)
    (fresh : ℕ) (p : NodeOrGroup × EdgeT) :
    processEdge thisId outNotIn (m, fresh) p =
      match lookupS (innerOf m p.1.identifier) p.2.typeIri with
      | none =>
        (setS (ensureOuter m p.1.identifier) p.1.identifier
          (setS (innerOf m p.1.identifier) p.2.typeIri
            ⟨newGroupEdge thisId outNotIn p.1.identifier p.2.typeIri fresh,
              jsSetOf p.2.classes⟩), fresh + 1)
      | some agg =>
        (setS (ensureOuter m p.1.identifier) p.1.identifier
          (setS (innerOf m p.1.identifier) p.2.typeIri
            ⟨agg.groupEdge, agg.classes.filter (fun c => p.2.classes.contains c)⟩),
          fresh) := by
  simp only [processEdge, ensureOuter, innerOf, newGroupEdge]
  cases hla : lookupS ((lookupS (if (lookupS m p.1.identifier).isSome then m
      else setS m p.1.identifier []) p.1.identifier).getD []) p.2.typeIri with
  | none =>
    simp only [hla, Option.isNone_none, if_true]
    rw [lookupS_setS]
    simp only [eq_self_iff_true, if_true]
    rw [setS_setS, filter_contains_jsSetOf]
  | some agg =>
    simp only [hla, Option.isNone_some, Bool.false_eq_true, if_false]

theorem lookup_ensureOuter_self (m : TargetTypeMap) (tid : String) :
    lookupS (ensureOuter m tid) tid = some (innerOf m tid) := by
  unfold innerOf ensureOuter
  cases hm : lookupS m tid with
  | none =>
    simp only [hm, Option.isSome_none, Bool.false_eq_true, if_false]
    rw [lookupS_setS]
    simp
  | some i =>
    simp [hm]

theorem lookup_ensureOuter_ne (m : TargetTypeMap) (tid tid' : String) (h : tid' ≠ tid) :
    lookupS (ensureOuter m tid) tid' = lookupS m tid' := by
  unfold ensureOuter
  cases hm : lookupS m tid with
  | none =>
    simp only [hm, Option.isSome_none, Bool.false_eq_true, if_false]
    rw [lookupS_setS, if_neg h]
  | some i => simp [hm]

theorem innerOf_eq (m : TargetTypeMap) (tid : String) :
    innerOf m tid = (lookupS m tid).getD [] := by
  unfold innerOf ensureOuter
  cases hm : lookupS m tid with
  | none =>
    simp only [hm, Option.isSome_none, Bool.false_eq_true, if_false]
    rw [lookupS_setS]
    simp
  | some i => simp [hm]

theorem keys_nodup_ensureOuter (m : TargetTypeMap) (tid : String)
    (h : (m.map Prod.fst).Nodup) : ((ensureOuter m tid).map Prod.fst).Nodup := by
  unfold ensureOuter
  by_cases hm : (lookupS m tid).isSome
  · simpa [hm]
  · simpa [hm] using keys_nodup_setS m tid [] h

theorem mem_ensureOuter {m : TargetTypeMap} {tid : String} {q : String × TypeMap}
    (h : q ∈ ensureOuter m tid) : q = (tid, []) ∨ q ∈ m := by
  unfold ensureOuter at h
  by_cases hm : (lookupS m tid).isSome
  · rw [if_pos hm] at h
    exact Or.inr h
  · rw [if_neg hm] at h
    exact mem_setS h

theorem contribsOf_eq_nil : ∀ {done : List (NodeOrGroup × EdgeT)} {tid typ : String},
    (∀ p ∈ done, p.1.identifier ≠ tid) → contribsOf done tid typ = []
  | [], _, _, _ => rfl
  | p :: done, tid, typ, h => by
    have h1 : (p.1.identifier == tid && p.2.typeIri == typ) = false := by
      simp [h p (List.mem_cons_self _ _)]
    simp only [contribsOf, List.filter_cons, h1, Bool.false_eq_true, if_false]
    exact contribsOf_eq_nil (fun q hq => h q (List.mem_cons_of_mem _ hq))

/-- Invariant of the `targetTypeGroupEdge` map after processing a prefix `done`
of the iteration pairs: outer and inner keys are duplicate-free; an outer entry
exists exactly for the counterparts seen so far; an inner entry exists exactly
for the (counterpart, type) pairs with at least one contribution; and every
entry holds the GroupEdge with the direction-appropriate endpoints and type,
an as-yet-unset class field, and the progressively intersected class set of
its contributions. -/
def MapInv (thisId : String) (outNotIn : Bool) (done : List (NodeOrGroup × EdgeT))
    (m : TargetTypeMap) : Prop :=
  (m.map Prod.fst).Nodup ∧
  (∀ q ∈ m, (q.2.map Prod.fst).Nodup) ∧
  (∀ tid, (lookupS m tid).isSome ↔ ∃ q ∈ done, q.1.identifier = tid) ∧
  (∀ tid inner, lookupS m tid = some inner →
    ∀ typ, (lookupS inner typ).isSome ↔ contribsOf done tid typ ≠ []) ∧
  (∀ tid inner, lookupS m tid = some inner →
    ∀ typ agg, lookupS inner typ = some agg →
      agg.groupEdge.sourceId = (if outNotIn then thisId else tid) ∧
      agg.groupEdge.targetId = (if outNotIn then tid else thisId) ∧
      agg.groupEdge.typeIri = typ ∧
      agg.groupEdge.classes = [] ∧
      agg.classes = interList (contribsOf done tid typ))

theorem MapInv_nil (thisId : String) (outNotIn : Bool) :
    MapInv thisId outNotIn [] [] := by
  refine ⟨List.nodup_nil, ?_, ?_, ?_, ?_⟩
  · intro q hq; simp at hq
  · intro tid; simp [lookupS]
  · intro tid inner h; simp [lookupS] at h
  · intro tid inner h; simp [lookupS] at h

theorem MapInv_step (thisId : String) (outNotIn : Bool)
    (done : List (NodeOrGroup × EdgeT)) (m : TargetTypeMap) (fresh : ℕ)
    (p : NodeOrGroup × EdgeT) (h : MapInv thisId outNotIn done m) :
    MapInv thisId outNotIn (done ++ [p]) (processEdge thisId outNotIn (m, fresh) p).1 := by
  obtain ⟨tgt, e⟩ := p
  obtain ⟨hN, hIN, hP, hTP, hC⟩ := h
  have hInnerNodup : ((innerOf m tgt.identifier).map Prod.fst).Nodup := by
    rw [innerOf_eq]
    cases hm : lookupS m tgt.identifier with
    | none => simp
    | some i => simpa using hIN (tgt.identifier, i) (lookupS_mem hm)
  have main : ∀ v : GroupEdgeAgg,
      (v.groupEdge.sourceId = (if outNotIn then thisId else tgt.identifier) ∧
       v.groupEdge.targetId = (if outNotIn then tgt.identifier else thisId) ∧
       v.groupEdge.typeIri = e.typeIri ∧
       v.groupEdge.classes = [] ∧
       v.classes = interList (contribsOf (done ++ [(tgt, e)]) tgt.identifier e.typeIri)) →
      MapInv thisId outNotIn (done ++ [(tgt, e)])
        (setS (ensureOuter m tgt.identifier) tgt.identifier
          (setS (innerOf m tgt.identifier) e.typeIri v)) := by
    intro v hv
    have hlookup_self :
        lookupS (setS (ensureOuter m tgt.identifier) tgt.identifier
            (setS (innerOf m tgt.identifier) e.typeIri v)) tgt.identifier =
          some (setS (innerOf m tgt.identifier) e.typeIri v) := by
      rw [lookupS_setS]
      simp
    have hlookup_ne : ∀ tid', tid' ≠ tgt.identifier →
        lookupS (setS (ensureOuter m tgt.identifier) tgt.identifier
            (setS (innerOf m tgt.identifier) e.typeIri v)) tid' = lookupS m tid' := by
      intro tid' ht
      rw [lookupS_setS, if_neg ht, lookup_ensureOuter_ne m _ _ ht]
    refine ⟨?_, ?_, ?_, ?_, ?_⟩
    · exact keys_nodup_setS _ _ _ (keys_nodup_ensureOuter m _ hN)
    · intro q hq
      rcases mem_setS hq with rfl | hq'
      · exact keys_nodup_setS _ _ _ hInnerNodup
      · rcases mem_ensureOuter hq' with rfl | hq''
        · simp
        · exact hIN q hq''
    · intro tid'
      by_cases ht : tid' = tgt.identifier
      · subst ht
        rw [hlookup_self]
        simp only [Option.isSome_some, true_iff]
        exact ⟨(tgt, e), by simp, rfl⟩
      · rw [hlookup_ne _ ht, hP tid']
        constructor
        · rintro ⟨q, hq, hq2⟩
          exact ⟨q, List.mem_append_left _ hq, hq2⟩
        · rintro ⟨q, hq, hq2⟩
          rcases List.mem_append.1 hq with hq' | hq'
          · exact ⟨q, hq', hq2⟩
          · rw [List.mem_singleton] at hq'
            subst hq'
            exact absurd hq2 (fun hh => ht hh.symm)
    · intro tid' inner' hll typ'
      by_cases ht : tid' = tgt.identifier
      · subst ht
        rw [hlookup_self] at hll
        have hinner' : inner' = setS (innerOf m tgt.identifier) e.typeIri v :=
          (Option.some.inj hll).symm
        subst hinner'
        rw [lookupS_setS]
        by_cases hty : typ' = e.typeIri
        · subst hty
          simp only [if_pos rfl, Option.isSome_some, true_iff]
          rw [contribsOf_append]
          simp
        · rw [if_neg hty]
          have hcond : ¬(tgt.identifier = tgt.identifier ∧ e.typeIri = typ') :=
            fun hc => hty (hc.2.symm)
          rw [contribsOf_append, if_neg hcond, List.append_nil]
          rw [innerOf_eq]
          cases hm : lookupS m tgt.identifier with
          | none =>
            simp only [Option.getD_none, lookupS, Option.isSome_none,
              Bool.false_eq_true, false_iff, ne_eq, not_not]
            have hno : ∀ q ∈ done, q.1.identifier ≠ tgt.identifier := by
              intro q hq hq2
              have : (lookupS m tgt.identifier).isSome := (hP tgt.identifier).2 ⟨q, hq, hq2⟩
              rw [hm] at this
              simp at this
            exact contribsOf_eq_nil hno
          | some i =>
            simpa using hTP tgt.identifier i hm typ'
      · rw [hlookup_ne _ ht] at hll
        have hcond : ¬(tgt.identifier = tid' ∧ e.typeIri = typ') :=
          fun hc => ht (hc.1.symm)
        rw [contribsOf_append, if_neg hcond, List.append_nil]
        exact hTP tid' inner' hll typ'
    · intro tid' inner' hll typ' agg' hll2
      by_cases ht : tid' = tgt.identifier
      · subst ht
        rw [hlookup_self] at hll
        have hinner' : inner' = setS (innerOf m tgt.identifier) e.typeIri v :=
          (Option.some.inj hll).symm
        subst hinner'
        rw [lookupS_setS] at hll2
        by_cases hty : typ' = e.typeIri
        · subst hty
          rw [if_pos rfl] at hll2
          have hagg : agg' = v := (Option.some.inj hll2).symm
          subst hagg
          exact hv
        · rw [if_neg hty, innerOf_eq] at hll2
          have hcond : ¬(tgt.identifier = tgt.identifier ∧ e.typeIri = typ') :=
            fun hc => hty (hc.2.symm)
          rw [contribsOf_append, if_neg hcond, List.append_nil]
          cases hm : lookupS m tgt.identifier with
          | none =>
            rw [hm] at hll2
            simp [lookupS] at hll2
          | some i =>
            rw [hm] at hll2
            exact hC tgt.identifier i hm typ' agg' (by simpa using hll2)
      · rw [hlookup_ne _ ht] at hll
        have hcond : ¬(tgt.identifier = tid' ∧ e.typeIri = typ') :=
          fun hc => ht (hc.1.symm)
        rw [contribsOf_append, if_neg hcond, List.append_nil]
        exact hC tid' inner' hll typ' agg' hll2
  have heq := processEdge_eq thisId outNotIn m fresh (tgt, e)
  cases hla : lookupS (innerOf m tgt.identifier) e.typeIri with
  | none =>
    rw [hla] at heq
    rw [heq]
    apply main
    have hnil : contribsOf done tgt.identifier e.typeIri = [] := by
      rw [innerOf_eq] at hla
      cases hm : lookupS m tgt.identifier with
      | none =>
        have hno : ∀ q ∈ done, q.1.identifier ≠ tgt.identifier := by
          intro q hq hq2
          have hsm : (lookupS m tgt.identifier).isSome := (hP tgt.identifier).2 ⟨q, hq, hq2⟩
          rw [hm] at hsm
          simp at hsm
        exact contribsOf_eq_nil hno
      | some i =>
        rw [hm] at hla
        simp only [Option.getD_some] at hla
        have h2 := hTP tgt.identifier i hm e.typeIri
        rw [hla] at h2
        simpa using h2
    have hclasses : jsSetOf e.classes =
        interList (contribsOf (done ++ [(tgt, e)]) tgt.identifier e.typeIri) := by
      rw [contribsOf_append, if_pos ⟨rfl, rfl⟩, hnil, List.nil_append]
      rfl
    cases outNotIn <;> exact ⟨rfl, rfl, rfl, rfl, hclasses⟩
  | some agg =>
    rw [hla] at heq
    rw [heq]
    apply main
    rw [innerOf_eq] at hla
    cases hm : lookupS m tgt.identifier with
    | none =>
      rw [hm] at hla
      simp [lookupS] at hla
    | some i =>
      rw [hm] at hla
      simp only [Option.getD_some] at hla
      obtain ⟨h1, h2, h3, h4, h5⟩ := hC tgt.identifier i hm e.typeIri agg hla
      have hne : contribsOf done tgt.identifier e.typeIri ≠ [] := by
        exact (hTP tgt.identifier i hm e.typeIri).1 (by rw [hla]; simp)
      refine ⟨h1, h2, h3, h4, ?_⟩
      rw [contribsOf_append, if_pos ⟨rfl, rfl⟩, interList_append_singleton hne, ← h5]

theorem MapInv_foldl (thisId : String) (outNotIn : Bool) :
    ∀ (L : List (NodeOrGroup × EdgeT)) (done : List (NodeOrGroup × EdgeT))
      (m : TargetTypeMap) (fresh : ℕ), MapInv thisId outNotIn done m →
      MapInv thisId outNotIn (done ++ L)
        (L.foldl (processEdge thisId outNotIn) (m, fresh)).1
  | [], done, m, fresh, h => by simpa using h
  | p :: L, done, m, fresh, h => by
    have h1 := MapInv_step thisId outNotIn done m fresh p h
    have h2 := MapInv_foldl thisId outNotIn L (done ++ [p])
      (processEdge thisId outNotIn (m, fresh) p).1
      (processEdge thisId outNotIn (m, fresh) p).2 h1
    simpa [List.append_assoc] using h2

theorem computeGroupEdges_inv (G : GraphT) (grp : GroupT) (outNotIn x : Bool) (fresh : ℕ) :
    MapInv grp.id outNotIn (iterationPairs G grp outNotIn x)
      ((iterationPairs G grp outNotIn x).foldl (processEdge grp.id outNotIn) ([], fresh)).1 := by
  simpa using MapInv_foldl grp.id outNotIn (iterationPairs G grp outNotIn x) [] [] fresh
    (MapInv_nil grp.id outNotIn)

theorem mem_collectGroupEdges {m : TargetTypeMap} {ge : GroupEdge} :
    ge ∈ collectGroupEdges m ↔
      ∃ q ∈ m, ∃ r ∈ q.2, ge = { r.2.groupEdge with classes := r.2.classes } := by
  simp only [collectGroupEdges, List.mem_flatMap, List.mem_map]
  constructor
  · rintro ⟨q, hq, r, hr, rfl⟩
    exact ⟨q, hq, r, hr, rfl⟩
  · rintro ⟨q, hq, r, hr, rfl⟩
    exact ⟨q, hq, r, hr, rfl⟩

theorem computeGroupEdges_classes (G : GraphT) (grp : GroupT)
    (outNotIn x : Bool) (fresh : ℕ) (ge : GroupEdge)
    (hge : ge ∈ (computeGroupEdges G grp outNotIn x fresh).1) :
    contributions G grp outNotIn x
        (if outNotIn then ge.targetId else ge.sourceId) ge.typeIri ≠ [] ∧
      ∀ c, c ∈ ge.classes ↔
        ∀ e' ∈ contributions G grp outNotIn x
            (if outNotIn then ge.targetId else ge.sourceId) ge.typeIri,
          c ∈ e'.classes := by
  obtain ⟨hN, hIN, hP, hTP, hC⟩ := computeGroupEdges_inv G grp outNotIn x fresh
  have hm : ge ∈ collectGroupEdges
      ((iterationPairs G grp outNotIn x).foldl (processEdge grp.id outNotIn) ([], fresh)).1 :=
    hge
  rw [mem_collectGroupEdges] at hm
  obtain ⟨q, hq, r, hr, rfl⟩ := hm
  have hlq := lookupS_of_mem_nodup hN (show (q.1, q.2) ∈ _ by simpa using hq)
  have hlr := lookupS_of_mem_nodup (hIN q hq) (show (r.1, r.2) ∈ _ by simpa using hr)
  obtain ⟨h1, h2, h3, h4, h5⟩ := hC q.1 q.2 hlq r.1 r.2 hlr
  have htid : (if outNotIn
        then ({ r.2.groupEdge with classes := r.2.classes } : GroupEdge).targetId
        else ({ r.2.groupEdge with classes := r.2.classes } : GroupEdge).sourceId) = q.1 := by
    cases outNotIn
    · simpa using h1
    · simpa using h2
  have htyp : ({ r.2.groupEdge with classes := r.2.classes } : GroupEdge).typeIri = r.1 := h3
  have hne : contribsOf (iterationPairs G grp outNotIn x) q.1 r.1 ≠ [] :=
    (hTP q.1 q.2 hlq r.1).1 (by rw [hlr]; simp)
  rw [htid, htyp]
  refine ⟨hne, ?_⟩
  intro c
  have hcl : ({ r.2.groupEdge with classes := r.2.classes } : GroupEdge).classes =
      interList (contribsOf (iterationPairs G grp outNotIn x) q.1 r.1) := h5
  rw [hcl]
  exact mem_interList hne c

theorem flatMap_congr_mem {α β : Type} :
    ∀ (l : List α) (f g : α → List β), (∀ a ∈ l, f a = g a) → l.flatMap f = l.flatMap g
  | [], _, _, _ => rfl
  | a :: l, f, g, h => by
    simp only [List.flatMap_cons]
    rw [h a (List.mem_cons_self _ _),
      flatMap_congr_mem l f g (fun b hb => h b (List.mem_cons_of_mem _ hb))]

theorem map_flatMap' {α β γ : Type} (g : β → γ) :
    ∀ (l : List α) (f : α → List β), (l.flatMap f).map g = l.flatMap (fun a => (f a).map g)
  | [], _ => rfl
  | a :: l, f => by
    simp only [List.flatMap_cons, List.map_append]
    rw [map_flatMap' g l f]

/-- Under the invariant, the identity-keys of the collected GroupEdges are the
(counterpart, type) key pairs of the nested map, oriented by direction. -/
theorem collect_ids_eq (thisId : String) (outNotIn : Bool)
    (done : List (NodeOrGroup × EdgeT)) (m : TargetTypeMap)
    (h : MapInv thisId outNotIn done m) :
    (collectGroupEdges m).map GroupEdge.identifier =
      m.flatMap (fun q => q.2.map (fun r =>
        if outNotIn then (thisId, q.1, r.1) else (q.1, thisId, r.1))) := by
  obtain ⟨hN, hIN, _, _, hC⟩ := h
  rw [collectGroupEdges, map_flatMap']
  apply flatMap_congr_mem
  intro q hq
  rw [List.map_map]
  apply List.map_congr_left
  intro r hr
  have hlq := lookupS_of_mem_nodup hN (show (q.1, q.2) ∈ _ by simpa using hq)
  have hlr := lookupS_of_mem_nodup (hIN q hq) (show (r.1, r.2) ∈ _ by simpa using hr)
  obtain ⟨h1, h2, h3, _, _⟩ := hC q.1 q.2 hlq r.1 r.2 hlr
  cases outNotIn
  · simp only [Bool.false_eq_true, if_false] at h1 h2 ⊢
    simp [GroupEdge.identifier, Function.comp, h1, h2, h3]
  · simp only [if_true] at h1 h2 ⊢
    simp [GroupEdge.identifier, Function.comp, h1, h2, h3]

theorem nodup_keys_flatMap (thisId : String) (outNotIn : Bool) :
    ∀ (m : TargetTypeMap), (m.map Prod.fst).Nodup →
      (∀ q ∈ m, (q.2.map Prod.fst).Nodup) →
      (m.flatMap (fun q => q.2.map (fun r =>
        if outNotIn then (thisId, q.1, r.1) else (q.1, thisId, r.1)))).Nodup
  | [], _, _ => List.nodup_nil
  | q :: m, hN, hIN => by
    simp only [List.flatMap_cons]
    simp only [List.map_cons, List.nodup_cons] at hN
    rw [List.nodup_append]
    refine ⟨?_, ?_, ?_⟩
    · have hq2 : (q.2.map Prod.fst).Nodup := hIN q (List.mem_cons_self _ _)
      have hrw : q.2.map (fun r => if outNotIn then (thisId, q.1, r.1) else (q.1, thisId, r.1))
          = (q.2.map Prod.fst).map
              (fun t => if outNotIn then (thisId, q.1, t) else (q.1, thisId, t)) := by
        rw [List.map_map]; rfl
      rw [hrw]
      apply List.Nodup.map ?_ hq2
      intro t₁ t₂ ht
      cases outNotIn <;> simpa using ht
    · exact nodup_keys_flatMap thisId outNotIn m hN.2
        (fun r hr => hIN r (List.mem_cons_of_mem _ hr))
    · intro k hk1 hk2
      simp only [List.mem_map] at hk1
      obtain ⟨r, hr, hkey1⟩ := hk1
      simp only [List.mem_flatMap, List.mem_map] at hk2
      obtain ⟨q', hq', r', hr', hkey2⟩ := hk2
      have hkk := hkey1.trans hkey2.symm
      have hqq : q.1 = q'.1 := by
        cases outNotIn
        · simp only [Bool.false_eq_true, if_false, Prod.mk.injEq] at hkk
          exact hkk.1
        · simp only [if_true, Prod.mk.injEq] at hkk
          exact hkk.2.1
      exact hN.1 (hqq ▸ List.mem_map_of_mem Prod.fst hq')

theorem computeGroupEdges_ids_nodup (G : GraphT) (grp : GroupT) (outNotIn x : Bool)
    (fresh : ℕ) :
    (((computeGroupEdges G grp outNotIn x fresh).1).map GroupEdge.identifier).Nodup := by
  have hinv := computeGroupEdges_inv G grp outNotIn x fresh
  have h2 : (computeGroupEdges G grp outNotIn x fresh).1 =
      collectGroupEdges
        ((iterationPairs G grp outNotIn x).foldl (processEdge grp.id outNotIn) ([], fresh)).1 :=
    rfl
  rw [h2, collect_ids_eq grp.id outNotIn _ _ hinv]
  exact nodup_keys_flatMap grp.id outNotIn _ hinv.1 hinv.2.1

/-! ## Object identity across reallocation

`stripGE` forgets the allocation number; the aggregation pass is deterministic
up to allocation numbers, which is what makes the replace-by-cache step able
to return the previous call's instances. -/

def stripGE (e : GroupEdge) : GroupEdge := { e with allocId := 0 }

def stripAgg (a : GroupEdgeAgg) : GroupEdgeAgg := ⟨stripGE a.groupEdge, a.classes⟩

def stripInner (i : TypeMap) : TypeMap := i.map (fun r => (r.1, stripAgg r.2))

def stripTT (m : TargetTypeMap) : TargetTypeMap := m.map (fun q => (q.1, stripInner q.2))

theorem lookupS_map_val {κ α β : Type} [DecidableEq κ] (g : α → β) :
    ∀ (m : List (κ × α)) (k : κ),
      lookupS (m.map (fun p => (p.1, g p.2))) k = (lookupS m k).map g
  | [], _ => rfl
  | (a, b) :: rest, k => by
    simp only [List.map_cons, lookupS]
    by_cases h : a = k
    · simp [h]
    · simp [h, lookupS_map_val g rest k]

theorem setS_map_val {κ α β : Type} [DecidableEq κ] (g : α → β) :
    ∀ (m : List (κ × α)) (k : κ) (v : α),
      (setS m k v).map (fun p => (p.1, g p.2)) = setS (m.map (fun p => (p.1, g p.2))) k (g v)
  | [], _, _ => rfl
  | (a, b) :: rest, k, v => by
    by_cases h : a = k
    · simp [setS, h]
    · simp [setS, h, setS_map_val g rest k v]

theorem stripTT_setS (m : TargetTypeMap) (tid : String) (v : TypeMap) :
    stripTT (setS m tid v) = setS (stripTT m) tid (stripInner v) :=
  setS_map_val _ m tid v

theorem stripInner_setS (i : TypeMap) (typ : String) (v : GroupEdgeAgg) :
    stripInner (setS i typ v) = setS (stripInner i) typ (stripAgg v) :=
  setS_map_val _ i typ v

theorem stripTT_ensureOuter (m : TargetTypeMap) (tid : String) :
    stripTT (ensureOuter m tid) = ensureOuter (stripTT m) tid := by
  unfold ensureOuter
  have hl : lookupS (stripTT m) tid = (lookupS m tid).map stripInner :=
    lookupS_map_val _ m tid
  by_cases h : (lookupS m tid).isSome
  · rw [if_pos h, if_pos (by rw [hl]; simpa using h)]
  · rw [if_neg h, if_neg (by rw [hl]; simpa using h)]
    exact setS_map_val _ m tid []

theorem stripInner_innerOf (m : TargetTypeMap) (tid : String) :
    stripInner (innerOf m tid) = innerOf (stripTT m) tid := by
  unfold innerOf
  rw [← stripTT_ensureOuter, show lookupS (stripTT (ensureOuter m tid)) tid
      = (lookupS (ensureOuter m tid) tid).map stripInner from lookupS_map_val _ _ _]
  cases lookupS (ensureOuter m tid) tid with
  | none => rfl
  | some i => rfl

theorem processEdge_strip (thisId : String) (outNotIn : Bool)
    (m₁ m₂ : TargetTypeMap) (f₁ f₂ : ℕ) (p : NodeOrGroup × EdgeT)
    (h : stripTT m₁ = stripTT m₂) :
    stripTT (processEdge thisId outNotIn (m₁, f₁) p).1 =
      stripTT (processEdge thisId outNotIn (m₂, f₂) p).1 := by
  have hinner : stripInner (innerOf m₁ p.1.identifier) =
      stripInner (innerOf m₂ p.1.identifier) := by
    rw [stripInner_innerOf, stripInner_innerOf, h]
  have hens : stripTT (ensureOuter m₁ p.1.identifier) =
      stripTT (ensureOuter m₂ p.1.identifier) := by
    rw [stripTT_ensureOuter, stripTT_ensureOuter, h]
  have hlook2 : (lookupS (innerOf m₁ p.1.identifier) p.2.typeIri).map stripAgg
      = (lookupS (innerOf m₂ p.1.identifier) p.2.typeIri).map stripAgg := by
    rw [← lookupS_map_val stripAgg (innerOf m₁ p.1.identifier) p.2.typeIri,
      ← lookupS_map_val stripAgg (innerOf m₂ p.1.identifier) p.2.typeIri]
    exact congrArg (fun i => lookupS i p.2.typeIri) hinner
  rw [processEdge_eq, processEdge_eq]
  cases hla₁ : lookupS (innerOf m₁ p.1.identifier) p.2.typeIri with
  | none =>
    have hla₂ : lookupS (innerOf m₂ p.1.identifier) p.2.typeIri = none := by
      rw [hla₁] at hlook2
      cases hx : lookupS (innerOf m₂ p.1.identifier) p.2.typeIri with
      | none => rfl
      | some a => rw [hx] at hlook2; simp at hlook2
    rw [hla₂]
    have hv : stripAgg ⟨newGroupEdge thisId outNotIn p.1.identifier p.2.typeIri f₁,
          jsSetOf p.2.classes⟩
        = stripAgg ⟨newGroupEdge thisId outNotIn p.1.identifier p.2.typeIri f₂,
          jsSetOf p.2.classes⟩ := by
      cases outNotIn <;> rfl
    show stripTT (setS (ensureOuter m₁ p.1.identifier) p.1.identifier
        (setS (innerOf m₁ p.1.identifier) p.2.typeIri _)) = _
    rw [stripTT_setS, stripTT_setS, stripInner_setS, stripInner_setS, hens, hinner, hv]
  | some agg₁ =>
    have hsome : ∃ agg₂, lookupS (innerOf m₂ p.1.identifier) p.2.typeIri = some agg₂ ∧
        stripAgg agg₂ = stripAgg agg₁ := by
      rw [hla₁] at hlook2
      cases hx : lookupS (innerOf m₂ p.1.identifier) p.2.typeIri with
      | none => rw [hx] at hlook2; simp at hlook2
      | some a =>
        rw [hx] at hlook2
        exact ⟨a, rfl, by simpa using hlook2.symm⟩
    obtain ⟨agg₂, hla₂, hagg⟩ := hsome
    rw [hla₂]
    have hge := congrArg GroupEdgeAgg.groupEdge hagg
    have hcl := congrArg GroupEdgeAgg.classes hagg
    simp only [stripAgg] at hge hcl
    have hv : stripAgg ⟨agg₁.groupEdge, agg₁.classes.filter (fun c => p.2.classes.contains c)⟩
        = stripAgg ⟨agg₂.groupEdge, agg₂.classes.filter (fun c => p.2.classes.contains c)⟩ := by
      simp only [stripAgg]
      rw [show stripGE agg₁.groupEdge = stripGE agg₂.groupEdge from hge.symm,
        show agg₁.classes = agg₂.classes from hcl.symm]
    show stripTT (setS (ensureOuter m₁ p.1.identifier) p.1.identifier
        (setS (innerOf m₁ p.1.identifier) p.2.typeIri _)) = _
    rw [stripTT_setS, stripTT_setS, stripInner_setS, stripInner_setS, hens, hinner, hv]

theorem foldl_strip (thisId : String) (outNotIn : Bool) :
    ∀ (L : List (NodeOrGroup × EdgeT)) (m₁ m₂ : TargetTypeMap) (f₁ f₂ : ℕ),
      stripTT m₁ = stripTT m₂ →
      stripTT (L.foldl (processEdge thisId outNotIn) (m₁, f₁)).1 =
        stripTT (L.foldl (processEdge thisId outNotIn) (m₂, f₂)).1
  | [], m₁, m₂, f₁, f₂, h => h
  | p :: L, m₁, m₂, f₁, f₂, h => by
    have h1 := processEdge_strip thisId outNotIn m₁ m₂ f₁ f₂ p h
    have h2 := foldl_strip thisId outNotIn L
      (processEdge thisId outNotIn (m₁, f₁) p).1 (processEdge thisId outNotIn (m₂, f₂) p).1
      (processEdge thisId outNotIn (m₁, f₁) p).2 (processEdge thisId outNotIn (m₂, f₂) p).2 h1
    simpa using h2

theorem flatMap_map' {α β γ : Type} (g : α → β) :
    ∀ (l : List α) (f : β → List γ), (l.map g).flatMap f = l.flatMap (fun a => f (g a))
  | [], _ => rfl
  | a :: l, f => by
    simp only [List.map_cons, List.flatMap_cons]
    rw [flatMap_map' g l f]

theorem collect_stripTT (m : TargetTypeMap) :
    (collectGroupEdges m).map stripGE = collectGroupEdges (stripTT m) := by
  rw [collectGroupEdges, collectGroupEdges, map_flatMap', stripTT, flatMap_map']
  apply flatMap_congr_mem
  intro q hq
  rw [List.map_map]
  show q.2.map _ = (stripInner q.2).map _
  unfold stripInner
  rw [List.map_map]
  apply List.map_congr_left
  intro r hr
  rfl

theorem computeGroupEdges_strip (G : GraphT) (grp : GroupT) (outNotIn x : Bool)
    (f₁ f₂ : ℕ) :
    ((computeGroupEdges G grp outNotIn x f₁).1).map stripGE =
      ((computeGroupEdges G grp outNotIn x f₂).1).map stripGE := by
  have h := foldl_strip grp.id outNotIn (iterationPairs G grp outNotIn x) [] [] f₁ f₂ rfl
  show (collectGroupEdges _).map stripGE = (collectGroupEdges _).map stripGE
  rw [collect_stripTT, collect_stripTT, h]

theorem computeGroupEdges_ids_fresh (G : GraphT) (grp : GroupT) (outNotIn x : Bool)
    (f₁ f₂ : ℕ) :
    ((computeGroupEdges G grp outNotIn x f₁).1).map GroupEdge.identifier =
      ((computeGroupEdges G grp outNotIn x f₂).1).map GroupEdge.identifier := by
  have h := computeGroupEdges_strip G grp outNotIn x f₁ f₂
  have h1 : ∀ l : List GroupEdge,
      l.map GroupEdge.identifier = (l.map stripGE).map GroupEdge.identifier := by
    intro l
    rw [List.map_map]
    apply List.map_congr_left
    intro a ha
    rfl
  rw [h1, h, ← h1]

/-! ## Cache reconciliation lemmas -/

/-- The cached instance stored under a key always carries that key as its
identity — true of the real cache because `GroupEdge.identifier` is computed
from the instance's own fields. -/
def BucketConsistent (b : CacheBucket) : Prop :=
  ∀ k v, lookupS b k = some v → v.identifier = k

def CacheConsistent (c : GroupEdgesCache) : Prop :=
  BucketConsistent c.out ∧ BucketConsistent c.inDir ∧ BucketConsistent c.inGroup

def CacheConsistentOpt : Option GroupEdgesCache → Prop
  | none => True
  | some c => CacheConsistent c

theorem bucketConsistent_nil : BucketConsistent [] := by
  intro k v h
  simp [lookupS] at h

theorem reconcile_fst (cache : CacheBucket) :
    ∀ (es : List GroupEdge) (nc : CacheBucket),
      (reconcile cache es nc).1 = es.map (fun e => (lookupS cache e.identifier).getD e)
  | [], _ => rfl
  | e :: es, nc => by
    simp only [reconcile, List.map_cons]
    rw [reconcile_fst cache es _]

theorem reconcile_snd (cache : CacheBucket) :
    ∀ (es : List GroupEdge) (nc : CacheBucket),
      (reconcile cache es nc).2 =
        ((reconcile cache es nc).1).foldl (fun b e => setS b e.identifier e) nc
  | [], _ => rfl
  | e :: es, nc => by
    simp only [reconcile, List.foldl_cons]
    exact reconcile_snd cache es _

theorem reconcile_ids (cache : CacheBucket) (hc : BucketConsistent cache)
    (es : List GroupEdge) (nc : CacheBucket) :
    ((reconcile cache es nc).1).map GroupEdge.identifier = es.map GroupEdge.identifier := by
  rw [reconcile_fst, List.map_map]
  apply List.map_congr_left
  intro e he
  cases hl : lookupS cache e.identifier with
  | none => simp [Function.comp, hl]
  | some ce => simp [Function.comp, hl, hc _ ce hl]

theorem lookup_foldl_setS_not_mem :
    ∀ (l : List GroupEdge) (nc : CacheBucket) (k : String × String × String),
      k ∉ l.map GroupEdge.identifier →
      lookupS (l.foldl (fun b e => setS b e.identifier e) nc) k = lookupS nc k
  | [], _, _, _ => rfl
  | e :: l, nc, k, h => by
    simp only [List.map_cons, List.mem_cons, not_or] at h
    simp only [List.foldl_cons]
    rw [lookup_foldl_setS_not_mem l _ k h.2, lookupS_setS, if_neg h.1]

theorem lookup_foldl_setS_isSome :
    ∀ (l : List GroupEdge) (nc : CacheBucket) (k : String × String × String),
      (lookupS (l.foldl (fun b e => setS b e.identifier e) nc) k).isSome ↔
        k ∈ l.map GroupEdge.identifier ∨ (lookupS nc k).isSome
  | [], nc, k => by simp
  | e :: l, nc, k => by
    simp only [List.foldl_cons, List.map_cons, List.mem_cons]
    rw [lookup_foldl_setS_isSome l _ k]
    constructor
    · rintro (h | h)
      · exact Or.inl (Or.inr h)
      · rw [lookupS_setS] at h
        by_cases hk : k = e.identifier
        · exact Or.inl (Or.inl hk)
        · rw [if_neg hk] at h
          exact Or.inr h
    · rintro ((h | h) | h)
      · exact Or.inr (by rw [lookupS_setS, if_pos h]; simp)
      · exact Or.inl h
      · right
        rw [lookupS_setS]
        by_cases hk : k = e.identifier
        · rw [if_pos hk]; simp
        · rw [if_neg hk]; exact h

theorem lookup_foldl_setS_self :
    ∀ (l : List GroupEdge) (nc : CacheBucket),
      (l.map GroupEdge.identifier).Nodup →
      ∀ x ∈ l, lookupS (l.foldl (fun b e => setS b e.identifier e) nc) x.identifier = some x
  | [], _, _, x, hx => absurd hx (List.not_mem_nil x)
  | e :: l, nc, hN, x, hx => by
    simp only [List.map_cons, List.nodup_cons] at hN
    simp only [List.foldl_cons]
    rcases List.mem_cons.1 hx with rfl | hx'
    · rw [lookup_foldl_setS_not_mem l _ _ hN.1, lookupS_setS, if_pos rfl]
    · exact lookup_foldl_setS_self l _ hN.2 x hx'

theorem lookup_foldl_setS_consistent :
    ∀ (l : List GroupEdge) (nc : CacheBucket), BucketConsistent nc →
      BucketConsistent (l.foldl (fun b e => setS b e.identifier e) nc)
  | [], nc, h => h
  | e :: l, nc, h => by
    simp only [List.foldl_cons]
    refine lookup_foldl_setS_consistent l _ ?_
    intro k' v' hl'
    rw [lookupS_setS] at hl'
    by_cases hk : k' = e.identifier
    · rw [if_pos hk] at hl'
      have hv : v' = e := (Option.some.inj hl').symm
      rw [hv, hk]
    · rw [if_neg hk] at hl'
      exact h k' v' hl'

theorem map_lookup_eq (nb : CacheBucket) :
    ∀ (es r1 : List GroupEdge),
      es.map GroupEdge.identifier = r1.map GroupEdge.identifier →
      (∀ y ∈ r1, lookupS nb y.identifier = some y) →
      es.map (fun e => (lookupS nb e.identifier).getD e) = r1
  | [], [], _, _ => rfl
  | [], y :: r1, h, _ => by simp at h
  | e :: es, [], h, _ => by simp at h
  | e :: es, y :: r1, h, hy => by
    simp only [List.map_cons, List.cons.injEq] at h
    simp only [List.map_cons]
    rw [h.1, hy y (List.mem_cons_self _ _)]
    simp only [Option.getD_some]
    rw [map_lookup_eq nb es r1 h.2 (fun z hz => hy z (List.mem_cons_of_mem _ hz))]

theorem selectBucket_gge (G : GraphT) (grp : GroupT) (outNotIn x : Bool)
    (c : Option GroupEdgesCache) (f : ℕ) :
    selectBucket outNotIn x (getGroupEdgesInDirection G grp outNotIn x c f).2.1 =
      (reconcile (selectBucket outNotIn x (c.getD ⟨[], [], []⟩))
        (computeGroupEdges G grp outNotIn x f).1 []).2 := by
  cases outNotIn <;> cases x <;> rfl

theorem reconcile_nil_cache (es : List GroupEdge) (nc : CacheBucket) :
    (reconcile [] es nc).1 = es := by
  rw [reconcile_fst]
  rw [show es.map (fun e => (lookupS ([] : CacheBucket) e.identifier).getD e) = es.map id from
    List.map_congr_left (fun e _ => rfl), List.map_id]

/-- C1: for every NodeGroup and direction, with the underlying graph unchanged,
calling `getGroupEdgesInDirection` twice yields identity-equal GroupEdge
objects both times (the second call returns exactly the first call's
instances, every computed edge whose identity-key exists in the cache bucket
having been replaced by the cached instance), and after each call the
direction's cache bucket contains exactly the identifiers of the returned
edges, with no stale entries remaining. The cache-consistency hypothesis
(each cached instance carries its own key) holds of every reachable cache,
the uninitialized one included. -/
theorem getGroupEdgesInDirection_cache_stable (G : GraphT) (grp : GroupT)
    (outNotIn x : Bool) (c0 : Option GroupEdgesCache) (f0 : ℕ)
    (hc : CacheConsistentOpt c0) :
    (getGroupEdgesInDirection G grp outNotIn x
        (some (getGroupEdgesInDirection G grp outNotIn x c0 f0).2.1)
        (getGroupEdgesInDirection G grp outNotIn x c0 f0).2.2).1 =
      (getGroupEdgesInDirection G grp outNotIn x c0 f0).1 ∧
    (∀ k, (lookupS (selectBucket outNotIn x
          (getGroupEdgesInDirection G grp outNotIn x c0 f0).2.1) k).isSome ↔
      k ∈ ((getGroupEdgesInDirection G grp outNotIn x c0 f0).1).map GroupEdge.identifier) ∧
    (∀ k, (lookupS (selectBucket outNotIn x
          (getGroupEdgesInDirection G grp outNotIn x
            (some (getGroupEdgesInDirection G grp outNotIn x c0 f0).2.1)
            (getGroupEdgesInDirection G grp outNotIn x c0 f0).2.2).2.1) k).isSome ↔
      k ∈ ((getGroupEdgesInDirection G grp outNotIn x
            (some (getGroupEdgesInDirection G grp outNotIn x c0 f0).2.1)
            (getGroupEdgesInDirection G grp outNotIn x c0 f0).2.2).1).map
          GroupEdge.identifier) ∧
    (∀ e ∈ (computeGroupEdges G grp outNotIn x f0).1, ∀ ce,
      lookupS (selectBucket outNotIn x (c0.getD ⟨[], [], []⟩)) e.identifier = some ce →
      ce ∈ (getGroupEdgesInDirection G grp outNotIn x c0 f0).1) := by
  have hb0c : BucketConsistent (selectBucket outNotIn x (c0.getD ⟨[], [], []⟩)) := by
    cases c0 with
    | none =>
      simp only [Option.getD_none, selectBucket]
      split_ifs <;> exact bucketConsistent_nil
    | some c =>
      obtain ⟨h1, h2, h3⟩ := hc
      simp only [Option.getD_some, selectBucket]
      split_ifs <;> assumption
  have hNod₁ := computeGroupEdges_ids_nodup G grp outNotIn x f0
  have hfst1 : (getGroupEdgesInDirection G grp outNotIn x c0 f0).1 =
      (reconcile (selectBucket outNotIn x (c0.getD ⟨[], [], []⟩))
        (computeGroupEdges G grp outNotIn x f0).1 []).1 := rfl
  have hids_r1 : ((reconcile (selectBucket outNotIn x (c0.getD ⟨[], [], []⟩))
        (computeGroupEdges G grp outNotIn x f0).1 []).1).map GroupEdge.identifier =
      ((computeGroupEdges G grp outNotIn x f0).1).map GroupEdge.identifier :=
    reconcile_ids _ hb0c _ []
  have hNod_r1 : (((reconcile (selectBucket outNotIn x (c0.getD ⟨[], [], []⟩))
        (computeGroupEdges G grp outNotIn x f0).1 []).1).map GroupEdge.identifier).Nodup := by
    rw [hids_r1]; exact hNod₁
  have hbkt1 := selectBucket_gge G grp outNotIn x c0 f0
  have hsnd1 := reconcile_snd (selectBucket outNotIn x (c0.getD ⟨[], [], []⟩))
    (computeGroupEdges G grp outNotIn x f0).1 []
  have hB : ∀ k, (lookupS (selectBucket outNotIn x
        (getGroupEdgesInDirection G grp outNotIn x c0 f0).2.1) k).isSome ↔
      k ∈ ((getGroupEdgesInDirection G grp outNotIn x c0 f0).1).map GroupEdge.identifier := by
    intro k
    rw [hbkt1, hsnd1, lookup_foldl_setS_isSome, hfst1]
    simp [lookupS]
  have hself : ∀ y ∈ (reconcile (selectBucket outNotIn x (c0.getD ⟨[], [], []⟩))
      (computeGroupEdges G grp outNotIn x f0).1 []).1,
      lookupS ((reconcile (selectBucket outNotIn x (c0.getD ⟨[], [], []⟩))
        (computeGroupEdges G grp outNotIn x f0).1 []).2) y.identifier = some y := by
    intro y hy
    rw [hsnd1]
    exact lookup_foldl_setS_self _ [] hNod_r1 y hy
  have hids₂ : ((computeGroupEdges G grp outNotIn x
        (getGroupEdgesInDirection G grp outNotIn x c0 f0).2.2).1).map GroupEdge.identifier =
      ((computeGroupEdges G grp outNotIn x f0).1).map GroupEdge.identifier :=
    computeGroupEdges_ids_fresh G grp outNotIn x _ f0
  have hfst2 : (getGroupEdgesInDirection G grp outNotIn x
      (some (getGroupEdgesInDirection G grp outNotIn x c0 f0).2.1)
      (getGroupEdgesInDirection G grp outNotIn x c0 f0).2.2).1 =
      (reconcile (selectBucket outNotIn x (getGroupEdgesInDirection G grp outNotIn x c0 f0).2.1)
        (computeGroupEdges G grp outNotIn x
          (getGroupEdgesInDirection G grp outNotIn x c0 f0).2.2).1 []).1 := rfl
  have hA : (getGroupEdgesInDirection G grp outNotIn x
      (some (getGroupEdgesInDirection G grp outNotIn x c0 f0).2.1)
      (getGroupEdgesInDirection G grp outNotIn x c0 f0).2.2).1 =
      (getGroupEdgesInDirection G grp outNotIn x c0 f0).1 := by
    rw [hfst2, hbkt1, reconcile_fst, hfst1]
    exact map_lookup_eq _ _ _ (hids₂.trans hids_r1.symm) hself
  refine ⟨hA, hB, ?_, ?_⟩
  · intro k
    have hbkt2 := selectBucket_gge G grp outNotIn x
      (some (getGroupEdgesInDirection G grp outNotIn x c0 f0).2.1)
      (getGroupEdgesInDirection G grp outNotIn x c0 f0).2.2
    simp only [Option.getD_some] at hbkt2
    rw [hbkt2, reconcile_snd, lookup_foldl_setS_isSome, hfst2]
    simp [lookupS]
  · intro e he ce hce
    rw [hfst1, reconcile_fst]
    refine List.mem_map.2 ⟨e, he, ?_⟩
    rw [hce]
    rfl

/-! ## A concrete group for witnesses: one visible member with two same-type
edges to a visible ungrouped counterpart, with class sets {a,b} and {b,c}. -/

def exNodeX : NodeT := ⟨"x", [], true, none, false, []⟩

def exEdge1 : EdgeT := ⟨"n1", "x", "T", ["a", "b"], true⟩

def exEdge2 : EdgeT := ⟨"n1", "x", "T", ["b", "c"], true⟩

def exNode1 : NodeT := ⟨"n1", [], true, some "g", false, [exEdge1, exEdge2]⟩

def exGrp : GroupT := ⟨"g", true, ["n1"]⟩

def exG : GraphT := ⟨[exNodeX, exNode1], [exGrp]⟩

/-- C2: every GroupEdge produced by the aggregation (from the uninitialized
cache) carries a class-label set equal to the intersection of the class labels
of all underlying visible real edges of its (counterpart, edge-type) pair; in
particular, two underlying edges of the same type between the group and one
counterpart with class sets {a,b} and {b,c} aggregate to a single GroupEdge
with class set exactly {b}. -/
theorem groupEdge_classes_intersection :
    (∀ (G : GraphT) (grp : GroupT) (outNotIn x : Bool) (f : ℕ) (ge : GroupEdge),
      ge ∈ (getGroupEdgesInDirection G grp outNotIn x none f).1 →
        contributions G grp outNotIn x
            (if outNotIn then ge.targetId else ge.sourceId) ge.typeIri ≠ [] ∧
          ∀ c, c ∈ ge.classes ↔
            ∀ e' ∈ contributions G grp outNotIn x
                (if outNotIn then ge.targetId else ge.sourceId) ge.typeIri,
              c ∈ e'.classes) ∧
    (getGroupEdgesInDirection exG exGrp true false none 0).1.map GroupEdge.classes =
      [["b"]] := by
  constructor
  · intro G grp outNotIn x f ge hge
    have hsel : selectBucket outNotIn x
        ((none : Option GroupEdgesCache).getD ⟨[], [], []⟩) = [] := by
      cases outNotIn <;> cases x <;> rfl
    have h1 : (getGroupEdgesInDirection G grp outNotIn x none f).1 =
        (computeGroupEdges G grp outNotIn x f).1 := by
      show (reconcile (selectBucket outNotIn x
          ((none : Option GroupEdgesCache).getD ⟨[], [], []⟩))
        (computeGroupEdges G grp outNotIn x f).1 []).1 = _
      rw [hsel, reconcile_nil_cache]
    rw [h1] at hge
    exact computeGroupEdges_classes G grp outNotIn x f ge hge
  · decide

/-- C2 witness: the two-edge {a,b}/{b,c} scenario instantiates the theorem;
its GroupEdge has class set {b}, which is a member exactly when it lies on
every contributing edge. -/
theorem groupEdge_classes_intersection_witness :
    ((⟨0, "g", "x", "T", ["b"]⟩ : GroupEdge) ∈
        (getGroupEdgesInDirection exG exGrp true false none 0).1) ∧
    (contributions exG exGrp true false "x" "T" ≠ [] ∧
      ∀ c, c ∈ (⟨0, "g", "x", "T", ["b"]⟩ : GroupEdge).classes ↔
        ∀ e' ∈ contributions exG exGrp true false "x" "T", c ∈ e'.classes) :=
  ⟨by decide,
    groupEdge_classes_intersection.1 exG exGrp true false 0
      ⟨0, "g", "x", "T", ["b"]⟩ (by decide)⟩

/-- C1 witness: the concrete group, starting from the uninitialized cache:
recomputation returns identity-equal GroupEdge objects. -/
theorem getGroupEdgesInDirection_cache_stable_witness :
    CacheConsistentOpt (none : Option GroupEdgesCache) ∧
    (getGroupEdgesInDirection exG exGrp true false
        (some (getGroupEdgesInDirection exG exGrp true false none 0).2.1)
        (getGroupEdgesInDirection exG exGrp true false none 0).2.2).1 =
      (getGroupEdgesInDirection exG exGrp true false none 0).1 :=
  ⟨trivial,
    (getGroupEdgesInDirection_cache_stable exG exGrp true false none 0 trivial).1⟩

/-! ## NodeGroup.addNode and group membership

World view of the group-membership state: the method mutates only the given
node's `belongsToGroup` reference and this group's member list, so the world
records every group's member list and every node's membership reference. -/

structure MemberNode where
  id : String
  belongsToGroup : Option String
deriving DecidableEq, Repr

structure MemberGroup where
  id : String
  nodes : List String
deriving DecidableEq, Repr

structure GroupingWorld where
  groups : List MemberGroup
  nodes : List MemberNode
deriving DecidableEq, Repr

/-- `NodeGroup.addNode(node, overrideExistingGroup)`: `console.assert` reports
an invariant violation (returned here as a `false` flag) when the node already
belongs to a group and the override is not set, and execution continues; under
the same condition the node is not added, otherwise the node's
`belongsToGroup` is pointed at this group and the node is pushed onto this
group's member list. No other group's member list is touched. -/
def NodeGroup.addNode (w : GroupingWorld) (gid nid : String)
    (overrideExistingGroup : Bool) : GroupingWorld × Bool :=
  match w.nodes.find? (fun n => n.id == nid) with
  | none => (w, true)
  | some node =>
    let assertOk := node.belongsToGroup.isNone || overrideExistingGroup
    if node.belongsToGroup.isNone || overrideExistingGroup then
      ({ groups := w.groups.map (fun g =>
            if g.id == gid then { g with nodes := g.nodes ++ [nid] } else g),
         nodes := w.nodes.map (fun n =>
            if n.id == nid then { n with belongsToGroup := some gid } else n) },
        assertOk)
    else (w, assertOk)

def c3World : GroupingWorld :=
  ⟨[⟨"A", ["n"]⟩, ⟨"B", []⟩], [⟨"n", some "A"⟩]⟩

/-- C3 counterexample: node "n" belongs to group "A"; adding it to group "B"
with the override flag leaves "A"'s member list still containing "n" (the
claim asserts "A"'s member list no longer contains it). -/
theorem addNode_override_not_exclusive :
    (NodeGroup.addNode c3World "B" "n" true).1 =
      ⟨[⟨"A", ["n"]⟩, ⟨"B", ["n"]⟩], [⟨"n", some "B"⟩]⟩ ∧
    "n" ∈ ((NodeGroup.addNode c3World "B" "n" true).1.groups.headD ⟨"", []⟩).nodes := by
  decide

/-- C3 (amended): for a node already in group A, addNode on group B without the
override reports the invariant violation and changes nothing; with the
override the node's `belongsToGroup` becomes B and B's member list gains the
node, but every other group's member list — A's included — is unchanged, so A
still contains the node. -/
theorem addNode_spec (w : GroupingWorld) (gid nid aid : String) (n : MemberNode)
    (hn : w.nodes.find? (fun x => x.id == nid) = some n)
    (hb : n.belongsToGroup = some aid) :
    (NodeGroup.addNode w gid nid false = (w, false)) ∧
    ((NodeGroup.addNode w gid nid true).2 = true) ∧
    (∀ x ∈ w.nodes, x.id = nid →
      { x with belongsToGroup := some gid } ∈ (NodeGroup.addNode w gid nid true).1.nodes) ∧
    (∀ g ∈ w.groups, g.id = gid →
      { g with nodes := g.nodes ++ [nid] } ∈ (NodeGroup.addNode w gid nid true).1.groups) ∧
    (∀ g ∈ w.groups, g.id ≠ gid → g ∈ (NodeGroup.addNode w gid nid true).1.groups) ∧
    (∀ g ∈ w.groups, g.id = aid → aid ≠ gid → nid ∈ g.nodes →
      ∃ g', g' ∈ (NodeGroup.addNode w gid nid true).1.groups ∧ g'.id = aid ∧
        nid ∈ g'.nodes) := by
  have hfalse : (NodeGroup.addNode w gid nid false) = (w, false) := by
    simp [NodeGroup.addNode, hn, hb]
  have htrue1 : (NodeGroup.addNode w gid nid true).1 =
      { groups := w.groups.map (fun g =>
            if g.id == gid then { g with nodes := g.nodes ++ [nid] } else g),
        nodes := w.nodes.map (fun x =>
            if x.id == nid then { x with belongsToGroup := some gid } else x) } := by
    simp [NodeGroup.addNode, hn, hb]
  have htrue2 : (NodeGroup.addNode w gid nid true).2 = true := by
    simp [NodeGroup.addNode, hn, hb]
  refine ⟨hfalse, htrue2, ?_, ?_, ?_, ?_⟩
  · intro x hx hxid
    rw [htrue1]
    have hfn : (fun y => if y.id == nid then { y with belongsToGroup := some gid } else y) x
        = { x with belongsToGroup := some gid } := by
      simp [hxid]
    exact hfn ▸ List.mem_map_of_mem _ hx
  · intro g hg hgid
    rw [htrue1]
    have hfn : (fun y => if y.id == gid then { y with nodes := y.nodes ++ [nid] } else y) g
        = { g with nodes := g.nodes ++ [nid] } := by
      simp [hgid]
    exact hfn ▸ List.mem_map_of_mem _ hg
  · intro g hg hgid
    rw [htrue1]
    have hfn : (fun y => if y.id == gid then { y with nodes := y.nodes ++ [nid] } else y) g
        = g := by
      simp [hgid]
    exact hfn ▸ List.mem_map_of_mem _ hg
  · intro g hg hgid hne hnid
    rw [htrue1]
    refine ⟨g, ?_, hgid, hnid⟩
    have hfn : (fun y => if y.id == gid then { y with nodes := y.nodes ++ [nid] } else y) g
        = g := by
      simp [hgid ▸ hne]
    exact hfn ▸ List.mem_map_of_mem _ hg

/-- C3 witness: the concrete world instantiates the amended theorem. -/
theorem addNode_spec_witness :
    (NodeGroup.addNode c3World "B" "n" false = (c3World, false)) ∧
    (∃ g', g' ∈ (NodeGroup.addNode c3World "B" "n" true).1.groups ∧ g'.id = "A" ∧
      "n" ∈ g'.nodes) :=
  ⟨(addNode_spec c3World "B" "n" "A" ⟨"n", some "A"⟩ (by decide) rfl).1,
    (addNode_spec c3World "B" "n" "A" ⟨"n", some "A"⟩ (by decide) rfl).2.2.2.2.2
      ⟨"A", ["n"]⟩ (by decide) rfl (by decide) (by decide)⟩

/-! ## ColaLayout.circleLayout

The positions are real-valued; the double-precision trigonometry of the
original is embedded as exact real arithmetic, `Math.floor(2 * Math.PI * k)`
as `⌊2πk⌋₊` (the two agree for every ring the loop can reach). -/

/-- The per-node mount state written by `circleLayout`
(`node.onMountPosition`, `node.mounted`). -/
structure MountState where
  onMountPosition : Option (ℝ × ℝ)
  mounted : Bool

namespace ColaLayout

/-- The loop of `circleLayout`: `total` is `nodes.length`, and
`circNum`/`phi`/`circumference`/`i` are the loop variables. When the current
ring is full (`phi == circumference`) the next ring is opened with capacity
`min(nodes.length - i, floor(2·π·circNum))` for the incremented `circNum`.
Each node is placed at distance `100 · circNum` from the anchor at angle
`2·π·phi/circumference`. -/
noncomputable def circleLayoutGo (total : ℕ) (position : ℝ × ℝ) :
    List MountState → ℕ → ℕ → ℕ → ℕ → List MountState
  | [], _, _, _, _ => []
  | _ :: rest, circNum, phi, circumference, i =>
    let st :=
      if phi = circumference then
        (circNum + 1, 0, min (total - i) ⌊2 * Real.pi * ((circNum + 1 : ℕ) : ℝ)⌋₊)
      else (circNum, phi, circumference)
    { onMountPosition := some
        (position.1 + 100 * (st.1 : ℝ) *
            Real.cos (2 * Real.pi * (st.2.1 : ℝ) / (st.2.2 : ℝ)),
         position.2 + 100 * (st.1 : ℝ) *
            Real.sin (2 * Real.pi * (st.2.1 : ℝ) / (st.2.2 : ℝ))),
      mounted := true } ::
      circleLayoutGo total position rest st.1 (st.2.1 + 1) st.2.2 (i + 1)

/-- `circleLayout(nodes, position)`: simple concentric-ring seeding around the
parent position, with minimal spacing 100. -/
noncomputable def circleLayout (nodes : List MountState) (position : ℝ × ℝ) :
    List MountState :=
  circleLayoutGo nodes.length position nodes 0 0 0 0

end ColaLayout

theorem floor_twoPi : ⌊(2 : ℝ) * Real.pi⌋₊ = 6 := by
  have hl := Real.pi_gt_d6
  have hu := Real.pi_lt_d2
  rw [Nat.floor_eq_iff (by positivity)]
  constructor
  · push_cast
    nlinarith
  · push_cast
    nlinarith

theorem floor_fourPi : ⌊(2 : ℝ) * Real.pi * 2⌋₊ = 12 := by
  have hl := Real.pi_gt_d6
  have hu := Real.pi_lt_d2
  rw [Nat.floor_eq_iff (by positivity)]
  constructor
  · push_cast
    nlinarith
  · push_cast
    nlinarith

/-- The first node of any non-empty seed list is placed on ring 1 at angle 0,
that is at `anchor + (100, 0)` — not at the anchor. -/
theorem circleLayout_head (ns : List MountState) (a : ℝ × ℝ) (hne : ns ≠ []) :
    (ColaLayout.circleLayout ns a).head? = some ⟨some (a.1 + 100, a.2), true⟩ := by
  cases ns with
  | nil => exact absurd rfl hne
  | cons n rest =>
    show (ColaLayout.circleLayoutGo (n :: rest).length a (n :: rest) 0 0 0 0).head? = _
    rw [ColaLayout.circleLayoutGo]
    simp only [if_pos rfl, List.head?_cons, Option.some.injEq]
    norm_num [Real.cos_zero, Real.sin_zero]

theorem circleLayout_seven :
    (ColaLayout.circleLayout (List.replicate 7 ⟨none, false⟩) (0, 0)).map
        MountState.onMountPosition =
      [some (100 * Real.cos (2 * Real.pi * 0 / 6), 100 * Real.sin (2 * Real.pi * 0 / 6)),
       some (100 * Real.cos (2 * Real.pi * 1 / 6), 100 * Real.sin (2 * Real.pi * 1 / 6)),
       some (100 * Real.cos (2 * Real.pi * 2 / 6), 100 * Real.sin (2 * Real.pi * 2 / 6)),
       some (100 * Real.cos (2 * Real.pi * 3 / 6), 100 * Real.sin (2 * Real.pi * 3 / 6)),
       some (100 * Real.cos (2 * Real.pi * 4 / 6), 100 * Real.sin (2 * Real.pi * 4 / 6)),
       some (100 * Real.cos (2 * Real.pi * 5 / 6), 100 * Real.sin (2 * Real.pi * 5 / 6)),
       some (200, 0)] := by
  show (ColaLayout.circleLayoutGo 7 (0, 0) (List.replicate 7 ⟨none, false⟩) 0 0 0 0).map
      MountState.onMountPosition = _
  norm_num [ColaLayout.circleLayoutGo, List.replicate, floor_twoPi, floor_fourPi,
    Real.cos_zero, Real.sin_zero]

/-- C4 counterexample: seeding 7 nodes around anchor (0,0) does NOT place the
first node at the anchor — the loop increments the ring counter before placing
anything, so the first node lands at (100, 0). -/
theorem circleLayout_not_at_anchor :
    ((ColaLayout.circleLayout (List.replicate 7 ⟨none, false⟩) (0, 0)).map
        MountState.onMountPosition).head? ≠ some (some (0, 0)) := by
  intro hc
  have h := circleLayout_head (List.replicate 7 ⟨none, false⟩) (0, 0) (by simp)
  rw [List.head?_map, h] at hc
  simp only [Option.map_some, Option.some.injEq, Prod.mk.injEq] at hc
  norm_num at hc

/-- C4 (amended): circleLayout never uses a ring 0 — the first node of any
non-empty list is placed on the ring of radius 100 at angle 0, i.e. at
anchor + (100, 0), not at the anchor; seeding 7 nodes around anchor (0,0)
places nodes 0..5 on the radius-100 ring at angles `2π·i/6` for i = 0..5 and
node 6 alone on the radius-200 ring at angle 0, i.e. at (200, 0). -/
theorem circleLayout_seed_positions :
    (∀ (ns : List MountState) (a : ℝ × ℝ), ns ≠ [] →
      (ColaLayout.circleLayout ns a).head? = some ⟨some (a.1 + 100, a.2), true⟩) ∧
    (ColaLayout.circleLayout (List.replicate 7 ⟨none, false⟩) (0, 0)).map
        MountState.onMountPosition =
      [some (100 * Real.cos (2 * Real.pi * 0 / 6), 100 * Real.sin (2 * Real.pi * 0 / 6)),
       some (100 * Real.cos (2 * Real.pi * 1 / 6), 100 * Real.sin (2 * Real.pi * 1 / 6)),
       some (100 * Real.cos (2 * Real.pi * 2 / 6), 100 * Real.sin (2 * Real.pi * 2 / 6)),
       some (100 * Real.cos (2 * Real.pi * 3 / 6), 100 * Real.sin (2 * Real.pi * 3 / 6)),
       some (100 * Real.cos (2 * Real.pi * 4 / 6), 100 * Real.sin (2 * Real.pi * 4 / 6)),
       some (100 * Real.cos (2 * Real.pi * 5 / 6), 100 * Real.sin (2 * Real.pi * 5 / 6)),
       some (200, 0)] :=
  ⟨circleLayout_head, circleLayout_seven⟩

/-- C4 witness: the first-node clause applied to 7 nodes at anchor (1,2). -/
theorem circleLayout_seed_positions_witness :
    ((List.replicate 7 (⟨none, false⟩ : MountState)) ≠ []) ∧
    (ColaLayout.circleLayout (List.replicate 7 ⟨none, false⟩) ((1 : ℝ), (2 : ℝ))).head? =
      some ⟨some ((1 : ℝ) + 100, 2), true⟩ :=
  ⟨by simp, circleLayout_seed_positions.1 (List.replicate 7 ⟨none, false⟩) (1, 2) (by simp)⟩

/-! ## Expansion handling: the explicitly-fixed identifier set -/

/-- Modelled from the spec: an Expansion is "a transient request value: a
parent node/group plus the set of newly revealed Nodes". -/
structure Expansion where
  nodes : List NodeT
  parentNode : NodeT

/-- Modelled from the spec: `Node.selfOrGroup` resolves to the node's group
when it is grouped, else the node itself (`NodeGroup.selfOrGroup` returns the
group); this is that object's identifier. -/
def NodeT.selfOrGroupIdentifier (n : NodeT) : String :=
  n.belongsToGroup.getD n.id

namespace ColaLayout

/-- The `explicitlyFixed` computation of `onExpansion` (lines 155-167): when
`expansionOnlyThose` is set, start from every currently-present node id, then
delete each expanded node's selfOrGroup identifier and the expansion parent's
selfOrGroup identifier; otherwise the set stays empty. -/
def onExpansionExplicitlyFixed (expansionOnlyThose : Bool) (cyNodeIds : List String)
    (expansion : Expansion) : Finset String :=
  if expansionOnlyThose then
    ((expansion.nodes.foldl (fun s n => s.erase n.selfOrGroupIdentifier)
        (cyNodeIds.foldl (fun s i => insert i s) (∅ : Finset String))).erase
      expansion.parentNode.selfOrGroupIdentifier)
  else ∅

end ColaLayout

theorem mem_foldl_insert (l : List String) (s : Finset String) (x : String) :
    x ∈ l.foldl (fun s i => insert i s) s ↔ x ∈ l ∨ x ∈ s := by
  induction l generalizing s with
  | nil => simp
  | cons a l ih =>
    simp only [List.foldl_cons, ih, Finset.mem_insert, List.mem_cons]
    tauto

theorem mem_foldl_erase {α : Type} (f : α → String) (l : List α) (s : Finset String)
    (x : String) :
    x ∈ l.foldl (fun s n => s.erase (f n)) s ↔ x ∈ s ∧ ∀ n ∈ l, x ≠ f n := by
  induction l generalizing s with
  | nil => simp
  | cons a l ih =>
    simp only [List.foldl_cons, ih, Finset.mem_erase, List.mem_cons]
    constructor
    · rintro ⟨⟨h1, h2⟩, h3⟩
      refine ⟨h2, ?_⟩
      rintro n (rfl | hn)
      · exact h1
      · exact h3 n hn
    · rintro ⟨h1, h2⟩
      exact ⟨⟨h2 a (Or.inl rfl), h1⟩, fun n hn => h2 n (Or.inr hn)⟩

/-- C5: with "restrict layout to touched elements only" enabled, the explicit
fixed identifier set passed to the layout run equals the identifiers of all
currently-present nodes, minus the selfOrGroup identifiers of the expansion's
nodes, minus the selfOrGroup identifier of the expansion's parent node. -/
theorem onExpansion_fixed_set (expansionOnlyThose : Bool) (cyNodeIds : List String)
    (expansion : Expansion) (h : expansionOnlyThose = true) :
    (∀ idt, idt ∈ ColaLayout.onExpansionExplicitlyFixed expansionOnlyThose cyNodeIds
          expansion ↔
      idt ∈ cyNodeIds ∧ idt ∉ expansion.nodes.map NodeT.selfOrGroupIdentifier ∧
        idt ≠ expansion.parentNode.selfOrGroupIdentifier) ∧
    ColaLayout.onExpansionExplicitlyFixed expansionOnlyThose cyNodeIds expansion =
      (cyNodeIds.toFinset \
          (expansion.nodes.map NodeT.selfOrGroupIdentifier).toFinset).erase
        expansion.parentNode.selfOrGroupIdentifier := by
  subst h
  have hm : ∀ idt, idt ∈ ColaLayout.onExpansionExplicitlyFixed true cyNodeIds expansion ↔
      idt ∈ cyNodeIds ∧ idt ∉ expansion.nodes.map NodeT.selfOrGroupIdentifier ∧
        idt ≠ expansion.parentNode.selfOrGroupIdentifier := by
    intro idt
    simp only [ColaLayout.onExpansionExplicitlyFixed, if_true]
    rw [Finset.mem_erase, mem_foldl_erase, mem_foldl_insert]
    constructor
    · rintro ⟨hp, ⟨hin, hall⟩⟩
      refine ⟨?_, ?_, hp⟩
      · rcases hin with h | h
        · exact h
        · exact absurd h (Finset.not_mem_empty idt)
      · intro hcon
        obtain ⟨n, hn, hfn⟩ := List.mem_map.1 hcon
        exact hall n hn hfn.symm
    · rintro ⟨h1, h2, h3⟩
      refine ⟨h3, Or.inl h1, ?_⟩
      intro n hn hne
      exact h2 (List.mem_map.2 ⟨n, hn, hne.symm⟩)
  refine ⟨hm, ?_⟩
  apply Finset.ext
  intro idt
  rw [Finset.mem_erase, Finset.mem_sdiff, List.mem_toFinset, List.mem_toFinset, hm idt]
  tauto

/-- C5 witness: a concrete expansion with the option enabled. -/
theorem onExpansion_fixed_set_witness :
    (true = true) ∧
    ColaLayout.onExpansionExplicitlyFixed true ["a", "b", "p", "e1"]
        ⟨[⟨"e1", [], true, none, false, []⟩], ⟨"p", [], true, none, false, []⟩⟩ =
      ((["a", "b", "p", "e1"] : List String).toFinset \
          ([⟨"e1", [], true, none, false, []⟩].map NodeT.selfOrGroupIdentifier).toFinset).erase
        (NodeT.selfOrGroupIdentifier ⟨"p", [], true, none, false, []⟩) :=
  ⟨rfl, (onExpansion_fixed_set true ["a", "b", "p", "e1"]
    ⟨[⟨"e1", [], true, none, false, []⟩], ⟨"p", [], true, none, false, []⟩⟩ rfl).2⟩

namespace ColaLayout

/-- The `extraLocked` predicate handed to the cola engine (line 268): a node is
held fixed when its id is in the explicit fixed set, or compact mode is not
active and the node's own lock flag is set. -/
def extraLocked (fixed : Finset String) (isCompactModeActive : Bool)
    (nodeId : String) (lockedForLayouts : Bool) : Bool :=
  decide (nodeId ∈ fixed) || (!isCompactModeActive && lockedForLayouts)

end ColaLayout

/-- C6: a node is held fixed iff its identifier is in the explicit fixed set,
or compact mode is not active and its lock flag is set; consequently a locked
node outside the fixed set is movable in a compact-mode run but fixed in a
non-compact run. -/
theorem extraLocked_spec (fixed : Finset String) (isCompactModeActive : Bool)
    (nodeId : String) (lockedForLayouts : Bool) :
    (ColaLayout.extraLocked fixed isCompactModeActive nodeId lockedForLayouts = true ↔
      nodeId ∈ fixed ∨ (isCompactModeActive = false ∧ lockedForLayouts = true)) ∧
    (lockedForLayouts = true → nodeId ∉ fixed →
      ColaLayout.extraLocked fixed true nodeId lockedForLayouts = false ∧
      ColaLayout.extraLocked fixed false nodeId lockedForLayouts = true) := by
  constructor
  · cases isCompactModeActive <;> cases lockedForLayouts <;>
      simp [ColaLayout.extraLocked]
  · intro hl hf
    subst hl
    exact ⟨by simp [ColaLayout.extraLocked, hf], by simp [ColaLayout.extraLocked, hf]⟩

/-- C6 witness: a locked node outside the (empty) fixed set. -/
theorem extraLocked_spec_witness :
    ((true = true) ∧ ("n" ∉ (∅ : Finset String))) ∧
    (ColaLayout.extraLocked ∅ true "n" true = false ∧
      ColaLayout.extraLocked ∅ false "n" true = true) :=
  ⟨⟨rfl, by simp⟩, (extraLocked_spec ∅ true "n" true).2 rfl (by simp)⟩

/-! ## The layout orchestrator as a state machine

The external cola engine is embedded as a pool of handles: `executeLayout`
allocates a fresh handle and starts it; `stop()` on the remembered
`layoutAnimation` removes it from the running pool. `runs` logs every
`collection.layout(...)` invocation with its collection and fixed set. -/

structure ColaLayoutOptions where
  doLayoutAfterReposition : Bool
  expansionOnlyThose : Bool
  animate : Bool
  nodeSpacing : Int
  edgeLength : Int
  groupExpansion : Bool
  expansionGroupLimit : ℕ
deriving DecidableEq, Repr

/-- The option defaults of `ColaLayout.options`. -/
def defaultColaOptions : ColaLayoutOptions :=
  { doLayoutAfterReposition := true, expansionOnlyThose := false, animate := true,
    edgeLength := 200, nodeSpacing := 10, groupExpansion := true,
    expansionGroupLimit := 10 }

structure RunRecord where
  handle : ℕ
  collection : List String
  fixed : Finset String
deriving DecidableEq

structure ColaState where
  options : ColaLayoutOptions
  isActive : Bool
  compactMode : Option (List String)
  layoutAnimation : Option ℕ
  engineRunning : List ℕ
  nextHandle : ℕ
  runs : List RunRecord
  cyNodes : List String
  cyElements : List String
  constraintRulesLoaded : Bool
  userPanningEnabled : Bool
  userZoomingEnabled : Bool
  boxSelectionEnabled : Bool
deriving DecidableEq

namespace ColaLayout

/-- `this.layoutAnimation?.stop()`. -/
def stopLayout (s : ColaState) : ColaState :=
  match s.layoutAnimation with
  | none => s
  | some h => { s with engineRunning := s.engineRunning.erase h }

/-- `executeLayout(collection, fixed)`: stop the previous run, then create and
run a new layout handle over the collection. -/
def executeLayout (s : ColaState) (collection : List String) (fixed : Finset String) :
    ColaState :=
  let s' := stopLayout s
  { s' with
    layoutAnimation := some s'.nextHandle,
    engineRunning := s'.engineRunning ++ [s'.nextHandle],
    nextHandle := s'.nextHandle + 1,
    runs := s'.runs ++ [⟨s'.nextHandle, collection, fixed⟩] }

/-- `getCollectionToAnimate()`: the compact subset when compact mode is
active, else all elements. -/
def getCollectionToAnimate (s : ColaState) : List String :=
  s.compactMode.getD s.cyElements

/-- `onDrag(isStartNotEnd)`. -/
def onDrag (s : ColaState) (isStartNotEnd : Bool) : ColaState :=
  if s.options.doLayoutAfterReposition &&
      (!isStartNotEnd || (s.options.animate && !s.constraintRulesLoaded)) then
    executeLayout s (getCollectionToAnimate s) ∅
  else s

/-- `onLockedChanged()`. -/
def onLockedChanged (s : ColaState) : ColaState :=
  executeLayout s (getCollectionToAnimate s) ∅

/-- `run()`. -/
def run (s : ColaState) : ColaState :=
  executeLayout s (getCollectionToAnimate s) ∅

/-- `setAreaForCompact(isCompact)`: toggle pan/zoom/box-selection. -/
def setAreaForCompact (s : ColaState) (isCompact : Bool) : ColaState :=
  { s with userPanningEnabled := !isCompact, userZoomingEnabled := !isCompact,
           boxSelectionEnabled := !isCompact }

/-- `onCompactMode(nodes, edges)`. -/
def onCompactMode (s : ColaState) (nodes edges : Option (List String)) : ColaState :=
  match nodes, edges with
  | none, none =>
    let s' := if s.compactMode.isSome then setAreaForCompact (stopLayout s) false else s
    { s' with compactMode := none }
  | nodes, edges =>
    let s' := if s.compactMode.isNone then setAreaForCompact (stopLayout s) true else s
    let s'' := { s' with compactMode := some ((nodes.getD []) ++ (edges.getD [])) }
    executeLayout s'' (getCollectionToAnimate s'') ∅

/-- `activate()`. -/
def activate (s : ColaState) : ColaState := { s with isActive := true }

/-- `deactivate()`: leave compact mode, then stop the in-flight run. -/
def deactivate (s : ColaState) : ColaState :=
  stopLayout (onCompactMode { s with isActive := false } none none)

/-- The part of `onExpansion` after the mount-wait: abort when deactivated,
else run the layout over all elements with the explicitly-fixed set. -/
def onExpansionResume (s : ColaState) (expansion : Expansion) : ColaState :=
  if s.isActive then
    executeLayout s s.cyElements
      (onExpansionExplicitlyFixed s.options.expansionOnlyThose s.cyNodes expansion)
  else s

/-- The part of `onGroupBroken` after the mount-wait. -/
def onGroupBrokenResume (s : ColaState) : ColaState :=
  if s.isActive then executeLayout s s.cyElements ∅ else s

end ColaLayout

/-- The orchestrator's externally-triggered operations. -/
inductive ColaOp
  | activateOp
  | deactivateOp
  | dragOp (isStartNotEnd : Bool)
  | lockedChangedOp
  | runOp
  | compactOp (nodes edges : Option (List String))
  | expansionOp (expansion : Expansion)
  | groupBrokenOp
  | graphChangedOp (nodeIds elementIds : List String)
  | constraintsOp (loaded : Bool)
  | optionsOp (o : ColaLayoutOptions)

def applyOp (s : ColaState) : ColaOp → ColaState
  | .activateOp => ColaLayout.activate s
  | .deactivateOp => ColaLayout.deactivate s
  | .dragOp b => ColaLayout.onDrag s b
  | .lockedChangedOp => ColaLayout.onLockedChanged s
  | .runOp => ColaLayout.run s
  | .compactOp nodes edges => ColaLayout.onCompactMode s nodes edges
  | .expansionOp expansion => ColaLayout.onExpansionResume s expansion
  | .groupBrokenOp => ColaLayout.onGroupBrokenResume s
  | .graphChangedOp ns els => { s with cyNodes := ns, cyElements := els }
  | .constraintsOp b => { s with constraintRulesLoaded := b }
  | .optionsOp o => { s with options := o }

def applyOps (ops : List ColaOp) (s : ColaState) : ColaState := ops.foldl applyOp s

def initColaState (cyNodes cyElements : List String) (constraintRulesLoaded : Bool) :
    ColaState :=
  { options := defaultColaOptions, isActive := false, compactMode := none,
    layoutAnimation := none, engineRunning := [], nextHandle := 0, runs := [],
    cyNodes := cyNodes, cyElements := cyElements,
    constraintRulesLoaded := constraintRulesLoaded,
    userPanningEnabled := true, userZoomingEnabled := true, boxSelectionEnabled := true }

/-- At most the remembered handle is running, and all running handles were
allocated before `nextHandle`. -/
def HandleInv (s : ColaState) : Prop :=
  (s.engineRunning = [] ∨
    ∃ h, s.engineRunning = [h] ∧ s.layoutAnimation = some h) ∧
  ∀ h ∈ s.engineRunning, h < s.nextHandle

theorem stopLayout_nextHandle (s : ColaState) :
    (ColaLayout.stopLayout s).nextHandle = s.nextHandle := by
  cases hla : s.layoutAnimation <;> simp [ColaLayout.stopLayout, hla]

theorem stopLayout_runs (s : ColaState) : (ColaLayout.stopLayout s).runs = s.runs := by
  cases hla : s.layoutAnimation <;> simp [ColaLayout.stopLayout, hla]

theorem stopLayout_running (s : ColaState) (h : HandleInv s) :
    (ColaLayout.stopLayout s).engineRunning = [] := by
  cases hla : s.layoutAnimation with
  | none =>
    rcases h.1 with h1 | ⟨hh, h1, h2⟩
    · simp [ColaLayout.stopLayout, hla, h1]
    · rw [hla] at h2
      cases h2
  | some hdl =>
    rcases h.1 with h1 | ⟨hh, h1, h2⟩
    · simp [ColaLayout.stopLayout, hla, h1]
    · rw [hla] at h2
      have hd : hdl = hh := Option.some.inj h2
      simp [ColaLayout.stopLayout, hla, h1, hd]

theorem handleInv_of_fields {s t : ColaState} (h : HandleInv s)
    (hr : t.engineRunning = s.engineRunning) (ha : t.layoutAnimation = s.layoutAnimation)
    (hn : t.nextHandle = s.nextHandle) : HandleInv t := by
  constructor
  · rcases h.1 with h1 | ⟨hh, h1, h2⟩
    · exact Or.inl (hr.trans h1)
    · exact Or.inr ⟨hh, hr.trans h1, ha.trans h2⟩
  · intro x hx
    rw [hn]
    exact h.2 x (hr ▸ hx)

theorem handleInv_stopLayout (s : ColaState) (h : HandleInv s) :
    HandleInv (ColaLayout.stopLayout s) := by
  constructor
  · exact Or.inl (stopLayout_running s h)
  · intro x hx
    rw [stopLayout_running s h] at hx
    cases hx

theorem executeLayout_running (s : ColaState) (c : List String) (f : Finset String)
    (h : HandleInv s) :
    (ColaLayout.executeLayout s c f).engineRunning = [s.nextHandle] := by
  show (ColaLayout.stopLayout s).engineRunning ++ [(ColaLayout.stopLayout s).nextHandle] = _
  rw [stopLayout_running s h, stopLayout_nextHandle]
  rfl

theorem executeLayout_runs (s : ColaState) (c : List String) (f : Finset String) :
    (ColaLayout.executeLayout s c f).runs = s.runs ++ [⟨s.nextHandle, c, f⟩] := by
  show (ColaLayout.stopLayout s).runs ++ [⟨(ColaLayout.stopLayout s).nextHandle, c, f⟩] = _
  rw [stopLayout_runs, stopLayout_nextHandle]

theorem handleInv_executeLayout (s : ColaState) (c : List String) (f : Finset String)
    (h : HandleInv s) : HandleInv (ColaLayout.executeLayout s c f) := by
  constructor
  · right
    refine ⟨s.nextHandle, executeLayout_running s c f h, ?_⟩
    show some (ColaLayout.stopLayout s).nextHandle = some s.nextHandle
    rw [stopLayout_nextHandle]
  · intro x hx
    rw [executeLayout_running s c f h] at hx
    simp only [List.mem_singleton] at hx
    subst hx
    show s.nextHandle < (ColaLayout.stopLayout s).nextHandle + 1
    rw [stopLayout_nextHandle]
    omega

theorem handleInv_onCompactExit (s : ColaState) (h : HandleInv s) :
    HandleInv (ColaLayout.onCompactMode s none none) := by
  show HandleInv { (if s.compactMode.isSome then
      ColaLayout.setAreaForCompact (ColaLayout.stopLayout s) false else s) with
    compactMode := none }
  by_cases hc : s.compactMode.isSome
  · rw [if_pos hc]
    exact handleInv_of_fields (handleInv_stopLayout s h) rfl rfl rfl
  · rw [if_neg hc]
    exact handleInv_of_fields h rfl rfl rfl

theorem handleInv_compactEnter (s : ColaState) (h : HandleInv s) :
    HandleInv (if s.compactMode.isNone then
      ColaLayout.setAreaForCompact (ColaLayout.stopLayout s) true else s) := by
  by_cases hc : s.compactMode.isNone
  · rw [if_pos hc]
    exact handleInv_of_fields (handleInv_stopLayout s h) rfl rfl rfl
  · rw [if_neg hc]
    exact h

theorem handleInv_onCompactMode (s : ColaState) (nodes edges : Option (List String))
    (h : HandleInv s) : HandleInv (ColaLayout.onCompactMode s nodes edges) := by
  rcases nodes with _ | ns
  · rcases edges with _ | es
    · exact handleInv_onCompactExit s h
    · exact handleInv_executeLayout _ _ _
        (handleInv_of_fields (handleInv_compactEnter s h) rfl rfl rfl)
  · rcases edges with _ | es
    · exact handleInv_executeLayout _ _ _
        (handleInv_of_fields (handleInv_compactEnter s h) rfl rfl rfl)
    · exact handleInv_executeLayout _ _ _
        (handleInv_of_fields (handleInv_compactEnter s h) rfl rfl rfl)

theorem handleInv_applyOp (s : ColaState) (op : ColaOp) (h : HandleInv s) :
    HandleInv (applyOp s op) := by
  cases op with
  | activateOp => exact handleInv_of_fields h rfl rfl rfl
  | deactivateOp =>
    exact handleInv_stopLayout _
      (handleInv_onCompactMode _ none none (handleInv_of_fields h rfl rfl rfl))
  | dragOp b =>
    show HandleInv (ColaLayout.onDrag s b)
    unfold ColaLayout.onDrag
    by_cases hcond : (s.options.doLayoutAfterReposition &&
        (!b || (s.options.animate && !s.constraintRulesLoaded))) = true
    · rw [if_pos hcond]
      exact handleInv_executeLayout _ _ _ h
    · rw [if_neg hcond]
      exact h
  | lockedChangedOp => exact handleInv_executeLayout _ _ _ h
  | runOp => exact handleInv_executeLayout _ _ _ h
  | compactOp nodes edges => exact handleInv_onCompactMode s nodes edges h
  | expansionOp expansion =>
    show HandleInv (ColaLayout.onExpansionResume s expansion)
    unfold ColaLayout.onExpansionResume
    by_cases ha : s.isActive = true
    · rw [if_pos ha]
      exact handleInv_executeLayout _ _ _ h
    · rw [if_neg ha]
      exact h
  | groupBrokenOp =>
    show HandleInv (ColaLayout.onGroupBrokenResume s)
    unfold ColaLayout.onGroupBrokenResume
    by_cases ha : s.isActive = true
    · rw [if_pos ha]
      exact handleInv_executeLayout _ _ _ h
    · rw [if_neg ha]
      exact h
  | graphChangedOp ns els => exact handleInv_of_fields h rfl rfl rfl
  | constraintsOp b => exact handleInv_of_fields h rfl rfl rfl
  | optionsOp o => exact handleInv_of_fields h rfl rfl rfl

theorem handleInv_applyOps : ∀ (ops : List ColaOp) (s : ColaState),
    HandleInv s → HandleInv (applyOps ops s)
  | [], _, h => h
  | op :: ops, s, h => handleInv_applyOps ops _ (handleInv_applyOp s op h)

theorem handleInv_init (cyNodes cyElements : List String) (crl : Bool) :
    HandleInv (initColaState cyNodes cyElements crl) := by
  constructor
  · exact Or.inl rfl
  · intro x hx
    cases hx

/-- C7: after any sequence of orchestrator operations from the initial state,
at most one layout-engine handle is active; and every layout invocation stops
the previously created handle before creating and running a new one, so the
new run's handle is the only active one afterwards and no previously active
handle survives — the latest request fully supersedes the prior one, runs are
never queued or merged. -/
theorem layout_run_cancellation (cyNodes cyElements : List String) (crl : Bool)
    (ops : List ColaOp) :
    (applyOps ops (initColaState cyNodes cyElements crl)).engineRunning.length ≤ 1 ∧
    ∀ (collection : List String) (fixed : Finset String),
      (ColaLayout.executeLayout (applyOps ops (initColaState cyNodes cyElements crl))
          collection fixed).engineRunning =
        [(applyOps ops (initColaState cyNodes cyElements crl)).nextHandle] ∧
      ∀ h ∈ (applyOps ops (initColaState cyNodes cyElements crl)).engineRunning,
        h ∉ (ColaLayout.executeLayout (applyOps ops (initColaState cyNodes cyElements crl))
            collection fixed).engineRunning := by
  have hInv := handleInv_applyOps ops _ (handleInv_init cyNodes cyElements crl)
  refine ⟨?_, ?_⟩
  · rcases hInv.1 with h1 | ⟨hh, h1, _⟩
    · simp [h1]
    · simp [h1]
  · intro collection fixed
    refine ⟨executeLayout_running _ _ _ hInv, ?_⟩
    intro h hh hcontra
    rw [executeLayout_running _ _ _ hInv] at hcontra
    simp only [List.mem_singleton] at hcontra
    subst hcontra
    exact absurd (hInv.2 _ hh) (lt_irrefl _)

theorem runs_append_ne (l : List RunRecord) (r : RunRecord) : l ++ [r] ≠ l := by
  intro h
  have hlen := congrArg List.length h
  simp at hlen

/-- C8 counterexample state: "layout after reposition" disabled, animation
enabled, constraints not yet loaded. -/
def c8State : ColaState :=
  { options := { defaultColaOptions with doLayoutAfterReposition := false },
    isActive := true, compactMode := none, layoutAnimation := none,
    engineRunning := [], nextHandle := 0, runs := [], cyNodes := ["n1"],
    cyElements := ["n1"], constraintRulesLoaded := false,
    userPanningEnabled := true, userZoomingEnabled := true,
    boxSelectionEnabled := true }

/-- C8 counterexample: with animation enabled and the engine's constraints not
yet loaded but "layout after reposition" disabled, a drag-start event triggers
no layout run at all — the claim's drag-start condition ("whenever animation
is enabled and the engine has not yet loaded its constraints") is not
sufficient, because the whole handler is guarded by `doLayoutAfterReposition`. -/
theorem onDrag_start_counterexample :
    c8State.options.animate = true ∧ c8State.constraintRulesLoaded = false ∧
    ColaLayout.onDrag c8State true = c8State :=
  ⟨rfl, rfl, rfl⟩

/-- C8 (amended): a drag-end event triggers a layout run over the current
animate-target collection exactly when "layout after reposition" is enabled,
and a drag-start event triggers one exactly when "layout after reposition" is
enabled AND animation is enabled AND the external engine has not yet
internally loaded its position constraints. -/
theorem onDrag_triggers (s : ColaState) :
    (ColaLayout.onDrag s false = if s.options.doLayoutAfterReposition = true then
        ColaLayout.executeLayout s (ColaLayout.getCollectionToAnimate s) ∅ else s) ∧
    (ColaLayout.onDrag s true = if s.options.doLayoutAfterReposition = true ∧
          s.options.animate = true ∧ s.constraintRulesLoaded = false then
        ColaLayout.executeLayout s (ColaLayout.getCollectionToAnimate s) ∅ else s) ∧
    ((ColaLayout.onDrag s false).runs ≠ s.runs ↔
      s.options.doLayoutAfterReposition = true) ∧
    ((ColaLayout.onDrag s true).runs ≠ s.runs ↔
      (s.options.doLayoutAfterReposition = true ∧ s.options.animate = true ∧
        s.constraintRulesLoaded = false)) := by
  cases hd : s.options.doLayoutAfterReposition <;>
    cases ha : s.options.animate <;>
      cases hc : s.constraintRulesLoaded <;>
        exact ⟨by simp [ColaLayout.onDrag, hd, ha, hc],
          by simp [ColaLayout.onDrag, hd, ha, hc],
          by simp [ColaLayout.onDrag, hd, ha, hc, executeLayout_runs, runs_append_ne],
          by simp [ColaLayout.onDrag, hd, ha, hc, executeLayout_runs, runs_append_ne]⟩

/-! ## Options persistence: `restoreFromObject`

`this.options = {...this.options, ...object}` with `object: any` is runtime
object spread: result keys are the current options' keys in order (values
overridden where the restored object provides them) followed by the restored
object's remaining keys. The flat record is embedded as a key/value list. -/

inductive OptVal
  | b (x : Bool)
  | n (x : Int)
deriving DecidableEq, Repr

abbrev OptionsObject := List (String × OptVal)

/-- The seven recognized option fields. -/
def recognizedOptionKeys : List String :=
  ["doLayoutAfterReposition", "expansionOnlyThose", "animate", "nodeSpacing",
   "edgeLength", "groupExpansion", "expansionGroupLimit"]

/-- The runtime-object view of `this.options`. -/
def ColaLayoutOptions.toObject (o : ColaLayoutOptions) : OptionsObject :=
  [("doLayoutAfterReposition", .b o.doLayoutAfterReposition),
   ("expansionOnlyThose", .b o.expansionOnlyThose),
   ("animate", .b o.animate),
   ("nodeSpacing", .n o.nodeSpacing),
   ("edgeLength", .n o.edgeLength),
   ("groupExpansion", .b o.groupExpansion),
   ("expansionGroupLimit", .n (o.expansionGroupLimit : Int))]

/-- JS object spread `{...base, ...obj}`: base's keys in base order with
values overridden by `obj` where present, then `obj`'s keys absent from base,
in `obj` order. -/
def spreadMerge (base obj : OptionsObject) : OptionsObject :=
  base.map (fun p => match lookupS obj p.1 with
    | some v => (p.1, v)
    | none => p) ++
  obj.filter (fun p => (lookupS base p.1).isNone)

/-- `restoreFromObject(object)`: `this.options = {...this.options, ...object}`. -/
def restoreFromObject (o : ColaLayoutOptions) (object : OptionsObject) : OptionsObject :=
  spreadMerge o.toObject object

theorem lookupS_append {κ α : Type} [DecidableEq κ] :
    ∀ (l1 l2 : List (κ × α)) (k : κ), lookupS (l1 ++ l2) k =
      match lookupS l1 k with
      | some v => some v
      | none => lookupS l2 k
  | [], l2, k => rfl
  | (a, b) :: l1, l2, k => by
    simp only [List.cons_append, lookupS]
    by_cases h : a = k
    · simp [h]
    · simp [h, lookupS_append l1 l2 k]

theorem lookupS_spread_base (obj : OptionsObject) :
    ∀ (base : OptionsObject) (k : String),
      lookupS (base.map (fun p => match lookupS obj p.1 with
        | some v => (p.1, v)
        | none => p)) k =
      (lookupS base k).map (fun w => (lookupS obj k).getD w)
  | [], _ => rfl
  | (a, b) :: base, k => by
    simp only [List.map_cons]
    by_cases h : a = k
    · subst h
      cases ho : lookupS obj a with
      | none => simp [lookupS, ho]
      | some v => simp [lookupS, ho]
    · cases ho : lookupS obj a with
      | none => simp [lookupS, ho, h, lookupS_spread_base obj base k]
      | some v => simp [lookupS, ho, h, lookupS_spread_base obj base k]

theorem lookupS_spread_extra (base : OptionsObject) :
    ∀ (obj : OptionsObject) (k : String),
      lookupS (obj.filter (fun p => (lookupS base p.1).isNone)) k =
        if (lookupS base k).isSome then none else lookupS obj k
  | [], k => by
    by_cases h : (lookupS base k).isSome <;> simp [lookupS, h]
  | (a, v) :: obj, k => by
    simp only [List.filter_cons]
    by_cases hak : a = k
    · subst hak
      by_cases hb : (lookupS base a).isSome
      · have hN : ((lookupS base a).isNone : Bool) = false := by
          cases hx : lookupS base a
          · rw [hx] at hb; simp at hb
          · rfl
        rw [hN]
        simp only [Bool.false_eq_true, if_false]
        rw [lookupS_spread_extra base obj a]
        simp [hb]
      · have hN : ((lookupS base a).isNone : Bool) = true := by
          cases hx : lookupS base a
          · rfl
          · rw [hx] at hb; simp at hb
        rw [hN]
        simp [lookupS, hb]
    · by_cases hf : ((lookupS base a).isNone : Bool) = true
      · rw [if_pos hf]
        simp only [lookupS]
        rw [if_neg hak, lookupS_spread_extra base obj k]
        simp [lookupS, hak]
      · rw [if_neg hf, lookupS_spread_extra base obj k]
        simp [lookupS, hak]

theorem lookupS_spreadMerge (base obj : OptionsObject) (k : String) :
    lookupS (spreadMerge base obj) k =
      match lookupS obj k with
      | some v => some v
      | none => lookupS base k := by
  unfold spreadMerge
  rw [lookupS_append, lookupS_spread_base, lookupS_spread_extra]
  cases hb : lookupS base k <;> cases ho : lookupS obj k <;> simp [hb, ho]

/-- C9 counterexample: a restored record with an unknown field is spread onto
the options object, so after restoring the options do NOT hold only the
recognized fields — the unknown key is carried along (unreferenced). -/
theorem restoreFromObject_unknown_field :
    lookupS (restoreFromObject defaultColaOptions [("unknownField", OptVal.n 5)])
        "unknownField" = some (OptVal.n 5) ∧
    "unknownField" ∉ recognizedOptionKeys ∧
    (restoreFromObject defaultColaOptions [("unknownField", OptVal.n 5)]).map Prod.fst ≠
      recognizedOptionKeys := by
  decide

/-- C9 (amended): restoreFromObject merges the given fields over the current
option values: a field given in the restored record takes the restored value,
every field not given keeps its prior value, and unknown fields never affect
any recognized field (the result at any key depends only on the restored
record's entry for that key and the prior value), though an unknown field is
itself retained on the resulting object. -/
theorem restoreFromObject_merge (o : ColaLayoutOptions) (object : OptionsObject)
    (k : String) :
    lookupS (restoreFromObject o object) k =
      match lookupS object k with
      | some v => some v
      | none => lookupS o.toObject k :=
  lookupS_spreadMerge o.toObject object k
